import Mathlib

/-!
Week resolution, team rotation and the shift pivot of `rosterWeek.go`.

A shallow embedding of `main` of `src/rosterWeek.go`.  The run is split along the
comments of the source:

* lines 58-65: range checks on the command-line arguments `year` and `week`;
* lines 67-76: the scan for the Monday and the Sunday of the requested week;
* lines 78-84: the rotated team list `shiftedTeamlist`;
* lines 86-106: `Table0`, discovery of the rows of `Table1`, and the sort;
* lines 108-123: the fill of `Table1`.

Go `int` values are modelled by `Int` (no arithmetic of the program can overflow:
the only arithmetic is `week % len`, `shiftedIndex++` and `index0 + 1`), Go
strings by `String`, slices by `List`.  A run that ends in `os.Exit(1)` or in a
runtime panic is an `Except.error`.
-/

namespace RosterWeek

/-! ## Failures -/

/-- Ways in which a run ends without output.  The first two are reported by the
program itself (a message on stderr and `os.Exit(1)`); the next two are runtime
panics of Go; the last one belongs to the model only (a loop budget ran out). -/
inductive Failure where
  | yearOutOfRange
  | weekOutOfRange
  | integerDivideByZero
  | indexOutOfRange
  | outOfFuel
  deriving DecidableEq, Repr

deriving instance DecidableEq for Except

/-- The failures that the program reports itself (message and exit status 1). -/
def Failure.isReported : Failure → Bool
  | .yearOutOfRange => true
  | .weekOutOfRange => true
  | _ => false

/-- The failures that are runtime panics (crashes) of the Go runtime. -/
def Failure.isPanic : Failure → Bool
  | .integerDivideByZero => true
  | .indexOutOfRange => true
  | _ => false

/-! ## The part of Go's `time` package that `main` uses

A `Time` value of the program is always a midnight in UTC, so it is modelled by
its day number.  Day 0 is 1 January of year 1 of the proleptic Gregorian
calendar; the absolute epoch of the Go library lies a whole number of 400-year
cycles (each a whole number of weeks) before it, so calendar dates and
weekdays are the same. -/

/-- A midnight in UTC, as a number of days since 1 January of year 1. -/
structure Time where
  abs : Nat
  deriving DecidableEq, Repr

def daysPer400Years : Nat := 365 * 400 + 97

def daysPer100Years : Nat := 365 * 100 + 24

def daysPer4Years : Nat := 365 * 4 + 1

/-- Go's `isLeap`. -/
def isLeap (year : Nat) : Bool :=
  year % 4 = 0 ∧ (year % 100 ≠ 0 ∨ year % 400 = 0)

/-- Go's table `daysBefore`: days of a non-leap year before each month. -/
def daysBefore : List Nat :=
  [0, 31, 59, 90, 120, 151, 181, 212, 243, 273, 304, 334, 365]

/-- Go's `daysSinceEpoch`: the day number of 1 January of `year`. -/
def daysSinceEpoch (year : Nat) : Nat :=
  let y := year - 1
  let n := y / 400
  let y := y - 400 * n
  let d := daysPer400Years * n
  let n := y / 100
  let y := y - 100 * n
  let d := d + daysPer100Years * n
  let n := y / 4
  let y := y - 4 * n
  let d := d + daysPer4Years * n
  d + 365 * y

/-- Go's `time.Date(year, month, day, 0, 0, 0, 0, time.UTC)` for a month in
`1..12` and a day of that month (the program calls it with 1 January only). -/
def Date (year month day : Nat) : Time :=
  let d := daysSinceEpoch year
  let d := d + daysBefore.getD (month - 1) 0
  let d := if isLeap year ∧ 3 ≤ month then d + 1 else d
  ⟨d + (day - 1)⟩

/-- Go's `absDate(abs, false)`: the year and the zero-based day of the year. -/
def Time.absDate (t : Time) : Nat × Nat :=
  let d := t.abs
  let n := d / daysPer400Years
  let y := 400 * n
  let d := d - daysPer400Years * n
  let n := d / daysPer100Years
  let n := n - n / 4
  let y := y + 100 * n
  let d := d - daysPer100Years * n
  let n := d / daysPer4Years
  let y := y + 4 * n
  let d := d - daysPer4Years * n
  let n := d / 365
  let n := n - n / 4
  let y := y + n
  let d := d - 365 * n
  (y + 1, d)

/-- Go's `absDate(abs, true)`: year, month (1..12) and day of the month. -/
def Time.date (t : Time) : Nat × Nat × Nat :=
  let (year, yday) := t.absDate
  if isLeap year ∧ yday = 31 + 29 - 1 then (year, 2, 29)
  else
    let day := if isLeap year ∧ yday > 31 + 29 - 1 then yday - 1 else yday
    let month := day / 31
    let stop := daysBefore.getD (month + 1) 0
    if day ≥ stop then (year, month + 2, day - stop + 1)
    else (year, month + 1, day - daysBefore.getD month 0 + 1)

/-- Go's `Time.Weekday`, with Sunday = 0, Monday = 1, ..., Saturday = 6. -/
def Time.Weekday (t : Time) : Nat := (t.abs + 1) % 7

/-- Go's `Time.AddDate(0, 0, days)`. -/
def Time.AddDate (t : Time) (days : Int) : Time := ⟨((t.abs : Int) + days).toNat⟩

/-- Go's `Time.ISOWeek`: the year and the week number of the Thursday of the
week (Monday to Sunday) that holds `t`. -/
def Time.ISOWeek (t : Time) : Nat × Nat :=
  let wd := t.Weekday
  let thursday : Time := if wd = 0 then t.AddDate (-3) else t.AddDate (4 - (wd : Int))
  let (year, yday) := thursday.absDate
  (year, yday / 7 + 1)

/-! ## Lines 67-76: the dates of the requested week -/

/-- The loop of lines 70-73: `for y == year && w != week`, stepping a week at a
time.  The loop has no syntactic bound, so the model takes a budget. -/
def seekWeek (year week : Int) : Nat → Time → Except Failure Time
  | 0, _ => .error .outOfFuel
  | fuel + 1, dateSeeker =>
    let (y, w) := dateSeeker.ISOWeek
    if (y : Int) = year ∧ (w : Int) ≠ week then
      seekWeek year week fuel (dateSeeker.AddDate 7)
    else
      .ok dateSeeker

/-- The loop of line 75: step back a day at a time until the weekday is Monday. -/
def seekMonday : Nat → Time → Except Failure Time
  | 0, _ => .error .outOfFuel
  | fuel + 1, weekMonday =>
    if weekMonday.Weekday ≠ 1 then seekMonday fuel (weekMonday.AddDate (-1))
    else .ok weekMonday

/-- Lines 67-76: `weekMonday` and `weekSunday` for a year and a week that passed
the range checks. -/
def weekDates (fuel : Nat) (year week : Int) : Except Failure (Time × Time) := do
  let dateSeeker ← seekWeek year week fuel (Date year.toNat 1 1)
  let weekMonday ← seekMonday fuel dateSeeker
  pure (weekMonday, weekMonday.AddDate 6)

/-- Two decimal digits, as `Format` prints a day or a month for the layout
elements `02` and `01`. -/
def twoDigits (n : Nat) : String :=
  if n < 10 then "0" ++ toString n else toString n

/-- Go's `Time.Format("02/01")`: day and month. -/
def Time.Format0201 (t : Time) : String :=
  let (_, month, day) := t.date
  twoDigits day ++ "/" ++ twoDigits month

/-! ## The configuration and the values handed to the template -/

/-- An entry of `DatasetConfig.Shifts`. -/
structure ShiftDef where
  Id : Int
  HourStart : String
  HourEnd : String
  deriving DecidableEq, Repr

/-- The fields of `DatasetConfig` that the computation reads. -/
structure DatasetConfig where
  Title : String
  Shifts : List ShiftDef
  TeamList : List String
  RosterMatrix : List (List Int)
  deriving DecidableEq, Repr

/-- A row of `TemplateOut.Table0`: a person and the shift of each day. -/
structure Table0Row where
  Name : String
  Shifts : List Int
  deriving DecidableEq, Repr

/-- A row of `TemplateOut.Table1`: a shift and the names of each day. -/
structure Table1Row where
  Shift : Int
  Names : List String
  deriving DecidableEq, Repr

/-- The value handed to the template, without its field `Shifts`.  That field is
the catalog after `sort.Slice` by `Id` (lines 90-91); the library leaves the
order of entries with equal `Id` open, and neither table reads it. -/
structure TemplateOut where
  Title : String
  WeekInfo : List String
  Table0 : List Table0Row
  Table1 : List Table1Row
  deriving DecidableEq, Repr

/-! ## Lines 78-84: the rotated team list -/

/-- The loop of lines 80-84.  Its guard is `len(shiftedTeamlist) < len(TeamList)`
and every turn appends one name, so the first argument counts the turns that
are left, `len(TeamList) - len(shiftedTeamlist)`.  Reading `TeamList` outside
its bounds is the runtime panic `indexOutOfRange`. -/
def shiftLoop (teamList : List String) : Nat → Int → List String → Except Failure (List String)
  | 0, _, shiftedTeamlist => .ok shiftedTeamlist
  | turns + 1, shiftedIndex, shiftedTeamlist =>
    if shiftedIndex < 0 then .error .indexOutOfRange
    else
      match teamList[shiftedIndex.toNat]? with
      | none => .error .indexOutOfRange
      | some name =>
        let shiftedIndex := shiftedIndex + 1
        let shiftedIndex := if shiftedIndex ≥ (teamList.length : Int) then 0 else shiftedIndex
        shiftLoop teamList turns shiftedIndex (shiftedTeamlist ++ [name])

/-- Lines 78-84.  `week % len(config.TeamList)` is Go's truncated remainder and
panics for an empty team list. -/
def shiftTeamlist (teamList : List String) (week : Int) : Except Failure (List String) :=
  if teamList.length = 0 then .error .integerDivideByZero
  else shiftLoop teamList teamList.length (Int.tmod week (teamList.length : Int)) []

/-! ## Lines 93-106: `Table0`, discovery of the rows of `Table1`, the sort -/

/-- Lines 100-102: a cell whose shift has no row yet appends an empty row. -/
def discoverCell (table1 : List Table1Row) (cell : Int) : List Table1Row :=
  if table1.any (fun shift => shift.Shift == cell) then table1
  else table1 ++ [⟨cell, []⟩]

/-- The loop of lines 93-104 over the rows of the matrix from row `index` on.
`shiftedTeamlist[index]` panics when the matrix has more rows than the team. -/
def prepareTables (shiftedTeamlist : List String) :
    Nat → List (List Int) → List Table0Row × List Table1Row →
      Except Failure (List Table0Row × List Table1Row)
  | _, [], tables => .ok tables
  | index, row :: rest, (table0, table1) =>
    match shiftedTeamlist[index]? with
    | none => .error .indexOutOfRange
    | some name =>
      prepareTables shiftedTeamlist (index + 1) rest
        (table0 ++ [⟨name, row⟩], row.foldl discoverCell table1)

/-- The order that line 106 passes to `sort.Slice`, as a non-strict order. -/
def shiftLE (a b : Table1Row) : Prop := a.Shift ≤ b.Shift

instance : DecidableRel shiftLE := fun a b => inferInstanceAs (Decidable (a.Shift ≤ b.Shift))

/-- Line 106: `sort.Slice` by `Shift`.  The library sort is modelled by
insertion sort; the rows have pairwise different shifts, so every sorting
algorithm gives the same list. -/
def sortTable1 (table1 : List Table1Row) : List Table1Row :=
  table1.insertionSort shiftLE

/-! ## Lines 108-123: the fill of `Table1` -/

/-- The loop of lines 112-114: append `""` while `len(Names) < index0 + 1`; the
second argument counts the turns that are left. -/
def padNames (names : List String) : Nat → List String
  | 0 => names
  | turns + 1 => padNames (names ++ [""]) turns

/-- Lines 112-119 on the `Names` of the matching row. -/
def assignName (names : List String) (index0 : Nat) (name : String) : List String :=
  let names := padNames names (index0 + 1 - names.length)
  let current := names.getD index0 ""
  if current.length < 1 then names.set index0 name
  else names.set index0 (current ++ "\n" ++ name)

/-- The loop of lines 110-121 for the cell `cell0` at day `index0` of the
person `name`: every row of `Table1` with that shift is updated in place. -/
def populateCell (name : String) (table1 : List Table1Row) (cell : Nat × Int) :
    List Table1Row :=
  table1.map fun row1 =>
    if row1.Shift = cell.2 then ⟨row1.Shift, assignName row1.Names cell.1 name⟩ else row1

/-- The loop of lines 109-122 for one row of `Table0`. -/
def populateRow (table1 : List Table1Row) (row0 : Table0Row) : List Table1Row :=
  row0.Shifts.enum.foldl (populateCell row0.Name) table1

/-- The loop of lines 108-123. -/
def populateTable1 (table0 : List Table0Row) (table1 : List Table1Row) : List Table1Row :=
  table0.foldl populateRow table1

/-- Lines 78-84 and 93-123: both tables from the team list, the week number and
the matrix. -/
def buildTables (teamList : List String) (week : Int) (matrix : List (List Int)) :
    Except Failure (List Table0Row × List Table1Row) := do
  let shiftedTeamlist ← shiftTeamlist teamList week
  let (table0, table1) ← prepareTables shiftedTeamlist 0 matrix ([], [])
  pure (table0, populateTable1 table0 (sortTable1 table1))

/-- The function `main` from the parsed arguments on (lines 62-123); the value
is what `tmpl.Execute` receives, but for the sorted catalog of lines 90-91. -/
def rosterWeek (fuel : Nat) (config : DatasetConfig) (year week : Int) :
    Except Failure TemplateOut := do
  if year < 2018 ∨ year > 2025 then throw Failure.yearOutOfRange
  if week < 1 ∨ week > 55 then throw Failure.weekOutOfRange
  let (weekMonday, weekSunday) ← weekDates fuel year week
  let (table0, table1) ← buildTables config.TeamList week config.RosterMatrix
  pure {
    Title := config.Title
    WeekInfo := [toString year, toString week, weekMonday.Format0201, weekSunday.Format0201]
    Table0 := table0
    Table1 := table1 }

/-! ## Auxiliary definitions for the proofs

The fill of `Table1` seen from one of its rows: every row of `Table1` is
updated on its own, so the `Names` of the row of shift `k` can be followed
through the cells of `Table0`. -/

/-- The value that lines 115-119 store in a slot holding `current`. -/
def joinName (current name : String) : String :=
  if current.length < 1 then name else current ++ "\n" ++ name

/-- What one cell of a person does to the `Names` of the row of shift `k`. -/
def rowStep (k : Int) (name : String) (names : List String) (cell : Nat × Int) :
    List String :=
  if k = cell.2 then assignName names cell.1 name else names

/-- What one row of `Table0` does to the `Names` of the row of shift `k`. -/
def rowFill (k : Int) (names : List String) (row0 : Table0Row) : List String :=
  row0.Shifts.enum.foldl (rowStep k row0.Name) names

/-- What the whole of `Table0` does to the `Names` of the row of shift `k`. -/
def tableFill (k : Int) (table0 : List Table0Row) (names : List String) : List String :=
  table0.foldl (rowFill k) names

instance : IsTotal Table1Row shiftLE := ⟨fun a b => Int.le_total a.Shift b.Shift⟩

instance : IsTrans Table1Row shiftLE := ⟨fun _ _ _ h1 h2 => Int.le_trans h1 h2⟩

/-! # Lemmas -/

/-! ## The rotation -/

/-- Closed form of the loop of lines 80-84 started at a valid index. -/
theorem shiftLoop_eq (teamList : List String) (turns : Nat) :
    ∀ (idx : Nat) (acc : List String), idx < teamList.length →
      shiftLoop teamList turns (idx : Int) acc =
        .ok (acc ++ (List.range turns).map
          (fun i => teamList.getD ((idx + i) % teamList.length) "")) := by
  induction turns with
  | zero => intro idx acc _; simp [shiftLoop]
  | succ t ih =>
    intro idx acc hidx
    have hneg : ¬ ((idx : Int) < 0) := by omega
    have hget : teamList[idx]? = some (teamList.getD idx "") := by
      simp [List.getD, List.getElem?_eq_getElem hidx]
    have hnext : (if ((idx : Int) + 1) ≥ (teamList.length : Int) then (0 : Int)
        else (idx : Int) + 1) = (((idx + 1) % teamList.length : Nat) : Int) := by
      by_cases h : idx + 1 = teamList.length
      · have h1 : ((idx : Int) + 1) ≥ (teamList.length : Int) := by omega
        rw [if_pos h1, h, Nat.mod_self]; rfl
      · have h1 : ¬ (((idx : Int) + 1) ≥ (teamList.length : Int)) := by omega
        rw [if_neg h1, Nat.mod_eq_of_lt (by omega)]; push_cast; rfl
    have hlt : (idx + 1) % teamList.length < teamList.length :=
      Nat.mod_lt _ (by omega)
    simp only [shiftLoop, if_neg hneg, Int.toNat_ofNat, hget]
    rw [hnext, ih _ _ hlt, List.range_succ_eq_map]
    simp only [List.map_cons, List.map_map, Nat.add_zero, Nat.mod_eq_of_lt hidx,
      List.append_assoc, List.singleton_append]
    congr 3
    apply List.map_congr_left
    intro i _
    simp only [Function.comp]
    congr 1
    rw [Nat.mod_add_mod]; congr 1; omega

/-- For a non-empty team and a non-negative week the rotation is
`List.rotate` by `week mod N`. -/
theorem shiftTeamlist_eq_rotate (teamList : List String) (week : Int)
    (hN : 0 < teamList.length) (hw : 0 ≤ week) :
    shiftTeamlist teamList week = .ok (teamList.rotate (week.toNat % teamList.length)) := by
  have hne : teamList.length ≠ 0 := by omega
  have hmod : Int.tmod week (teamList.length : Int)
      = ((week.toNat % teamList.length : Nat) : Int) := by
    obtain ⟨w, rfl⟩ := Int.eq_ofNat_of_zero_le hw
    simp [Int.tmod]
  have hlt : week.toNat % teamList.length < teamList.length := Nat.mod_lt _ hN
  rw [shiftTeamlist, if_neg hne, hmod, shiftLoop_eq _ _ _ _ hlt]
  congr 1
  apply List.ext_getElem
  · simp
  · intro i h1 h2
    simp only [List.nil_append, List.length_map, List.length_range] at h1
    simp only [List.nil_append, List.getElem_map, List.getElem_range, List.getElem_rotate]
    have h3 : (week.toNat % teamList.length + i) % teamList.length < teamList.length :=
      Nat.mod_lt _ hN
    rw [List.getD_eq_getElem _ _ h3]
    congr 1
    rw [Nat.add_comm]

/-! ## The fill of one `Names` list -/

theorem string_length_lt_one (s : String) : s.length < 1 ↔ s = "" := by
  constructor
  · intro h
    apply String.ext
    have h0 : s.data.length = 0 := by
      have : s.length = s.data.length := rfl
      omega
    simpa using List.length_eq_zero.mp h0
  · rintro rfl; decide

theorem padNames_eq (n : Nat) : ∀ names : List String,
    padNames names n = names ++ List.replicate n "" := by
  induction n with
  | zero => intro names; simp [padNames]
  | succ n ih =>
    intro names
    rw [padNames, ih, List.replicate_succ, List.append_assoc, List.singleton_append]

theorem getD_pad (names : List String) (n j : Nat) :
    (names ++ List.replicate n "").getD j "" = names.getD j "" := by
  simp only [List.getD_eq_getElem?_getD]
  by_cases h : j < names.length
  · rw [List.getElem?_append_left h]
  · have h1 : names.length ≤ j := Nat.le_of_not_lt h
    rw [List.getElem?_append_right h1, List.getElem?_eq_none h1, List.getElem?_replicate]
    split <;> rfl

theorem assignName_eq (names : List String) (index0 : Nat) (name : String) :
    assignName names index0 name =
      (names ++ List.replicate (index0 + 1 - names.length) "").set index0
        (joinName (names.getD index0 "") name) := by
  simp only [assignName, padNames_eq, getD_pad, joinName]
  split <;> rfl

theorem length_assignName (names : List String) (index0 : Nat) (name : String) :
    (assignName names index0 name).length = max names.length (index0 + 1) := by
  rw [assignName_eq]
  simp only [List.length_set, List.length_append, List.length_replicate]
  omega

theorem getD_assignName (names : List String) (index0 j : Nat) (name : String) :
    (assignName names index0 name).getD j "" =
      if j = index0 then joinName (names.getD index0 "") name else names.getD j "" := by
  rw [assignName_eq]
  have hlen : index0 < (names ++ List.replicate (index0 + 1 - names.length) "").length := by
    simp only [List.length_append, List.length_replicate]; omega
  by_cases h : j = index0
  · subst h
    rw [if_pos rfl, List.getD_eq_getElem?_getD, List.getElem?_set_self hlen]
    rfl
  · rw [if_neg h, List.getD_eq_getElem?_getD, List.getElem?_set_ne (Ne.symm h),
      ← List.getD_eq_getElem?_getD, getD_pad]

/-! ## The fill, one row of `Table1` at a time -/

theorem populateCell_eq (name : String) (table1 : List Table1Row) (cell : Nat × Int) :
    populateCell name table1 cell =
      table1.map fun r => ⟨r.Shift, rowStep r.Shift name r.Names cell⟩ := by
  unfold populateCell rowStep
  apply List.map_congr_left
  intro r _
  split <;> rfl

/-- A fold of row-wise updates is a row-wise fold. -/
theorem foldl_map_rows {α : Type} (f : Int → List String → α → List String) (l : List α) :
    ∀ table1 : List Table1Row,
      l.foldl (fun t a => t.map fun r => ⟨r.Shift, f r.Shift r.Names a⟩) table1
        = table1.map fun r => ⟨r.Shift, l.foldl (f r.Shift) r.Names⟩ := by
  induction l with
  | nil => intro table1; simp
  | cons a l ih =>
    intro table1
    rw [List.foldl_cons, ih, List.map_map]
    rfl

theorem populateRow_eq (table1 : List Table1Row) (row0 : Table0Row) :
    populateRow table1 row0 = table1.map fun r => ⟨r.Shift, rowFill r.Shift r.Names row0⟩ := by
  unfold populateRow rowFill
  have h : populateCell row0.Name
      = fun t cell => t.map fun r => ⟨r.Shift, rowStep r.Shift row0.Name r.Names cell⟩ := by
    funext t cell; exact populateCell_eq _ _ _
  rw [h]
  exact foldl_map_rows (fun k names cell => rowStep k row0.Name names cell) _ table1

theorem populateTable1_eq (table0 : List Table0Row) (table1 : List Table1Row) :
    populateTable1 table0 table1
      = table1.map fun r => ⟨r.Shift, tableFill r.Shift table0 r.Names⟩ := by
  unfold populateTable1 tableFill
  have h : populateRow = fun t row0 => t.map fun r => ⟨r.Shift, rowFill r.Shift r.Names row0⟩ := by
    funext t row0; exact populateRow_eq _ _
  rw [h]
  exact foldl_map_rows (fun k names row0 => rowFill k names row0) _ table1

/-- The slot of day `j` after the cells `l`, numbered from `s`, of one person. -/
theorem getD_foldl_rowStep (k : Int) (name : String) (j : Nat) (l : List Int) :
    ∀ (s : Nat) (names : List String),
      ((l.enumFrom s).foldl (rowStep k name) names).getD j "" =
        if s ≤ j ∧ l[j - s]? = some k then joinName (names.getD j "") name
        else names.getD j "" := by
  induction l with
  | nil => intro s names; simp
  | cons c rest ih =>
    intro s names
    rw [List.enumFrom_cons, List.foldl_cons, ih]
    by_cases hjs : j = s
    · subst hjs
      have h1 : ¬ (j + 1 ≤ j ∧ rest[j - (j + 1)]? = some k) := by omega
      rw [if_neg h1]
      simp only [Nat.sub_self, List.getElem?_cons_zero, Option.some.injEq, le_refl, true_and]
      unfold rowStep
      by_cases hk : k = c
      · rw [if_pos hk, if_pos hk.symm, getD_assignName, if_pos rfl]
      · rw [if_neg hk, if_neg (fun h => hk h.symm)]
    · have hstep : (rowStep k name names (s, c)).getD j "" = names.getD j "" := by
        unfold rowStep
        split
        · rw [getD_assignName, if_neg hjs]
        · rfl
      rw [hstep]
      by_cases hlt : s + 1 ≤ j
      · have h2 : j - s = (j - (s + 1)) + 1 := by omega
        have h3 : s ≤ j := by omega
        rw [h2, List.getElem?_cons_succ]
        simp only [hlt, h3, true_and]
      · have h3 : ¬ s ≤ j := by omega
        simp only [hlt, h3, false_and, if_false]

theorem getD_rowFill (k : Int) (names : List String) (row0 : Table0Row) (j : Nat) :
    (rowFill k names row0).getD j "" =
      if row0.Shifts[j]? = some k then joinName (names.getD j "") row0.Name
      else names.getD j "" := by
  unfold rowFill List.enum
  rw [getD_foldl_rowStep]
  simp

/-- The slot of day `j` of the row of shift `k`: the names of the persons that
have shift `k` on day `j`, joined in the order of the rows of `Table0`. -/
theorem getD_tableFill (k : Int) (j : Nat) (table0 : List Table0Row) :
    ∀ names : List String,
      (tableFill k table0 names).getD j "" =
        ((table0.filter fun row0 => row0.Shifts[j]? = some k).map Table0Row.Name).foldl
          joinName (names.getD j "") := by
  induction table0 with
  | nil => intro names; simp [tableFill]
  | cons row0 rest ih =>
    intro names
    have hunf : tableFill k (row0 :: rest) names = tableFill k rest (rowFill k names row0) := rfl
    rw [hunf, ih, getD_rowFill, List.filter_cons]
    by_cases h : row0.Shifts[j]? = some k
    · simp [h]
    · simp [h]

theorem length_rowStep (k : Int) (name : String) (names : List String) (s : Nat) (c : Int) :
    (rowStep k name names (s, c)).length
      = if k = c then max names.length (s + 1) else names.length := by
  unfold rowStep
  split
  · rw [length_assignName]
  · rfl

/-- The length of `Names` after the cells `l`, numbered from `s`, of one person. -/
theorem length_foldl_rowStep (k : Int) (name : String) (n : Nat) (l : List Int) :
    ∀ (s : Nat) (names : List String),
      n < ((l.enumFrom s).foldl (rowStep k name) names).length ↔
        n < names.length ∨ ∃ j, n ≤ j ∧ s ≤ j ∧ l[j - s]? = some k := by
  induction l with
  | nil => intro s names; simp
  | cons c rest ih =>
    intro s names
    rw [List.enumFrom_cons, List.foldl_cons, ih, length_rowStep]
    constructor
    · rintro (h | ⟨j, hnj, hsj, hj⟩)
      · by_cases hk : k = c
        · rw [if_pos hk] at h
          by_cases hn : n < names.length
          · exact Or.inl hn
          · refine Or.inr ⟨s, by omega, le_refl s, ?_⟩
            simp [hk]
        · rw [if_neg hk] at h; exact Or.inl h
      · refine Or.inr ⟨j, hnj, by omega, ?_⟩
        have h2 : j - s = (j - (s + 1)) + 1 := by omega
        rw [h2, List.getElem?_cons_succ]; exact hj
    · rintro (h | ⟨j, hnj, hsj, hj⟩)
      · left
        split <;> omega
      · by_cases hjs : j = s
        · subst hjs
          simp only [Nat.sub_self, List.getElem?_cons_zero, Option.some.injEq] at hj
          left
          rw [if_pos hj.symm]; omega
        · right
          refine ⟨j, hnj, by omega, ?_⟩
          have h2 : j - s = (j - (s + 1)) + 1 := by omega
          rw [h2, List.getElem?_cons_succ] at hj; exact hj

theorem length_rowFill (k : Int) (names : List String) (row0 : Table0Row) (n : Nat) :
    n < (rowFill k names row0).length ↔
      n < names.length ∨ ∃ j, n ≤ j ∧ row0.Shifts[j]? = some k := by
  unfold rowFill List.enum
  rw [length_foldl_rowStep]
  simp

/-- The length of the `Names` of the row of shift `k`: one more than the last
day on which some person has shift `k`. -/
theorem length_tableFill (k : Int) (n : Nat) (table0 : List Table0Row) :
    ∀ names : List String,
      n < (tableFill k table0 names).length ↔
        n < names.length ∨ ∃ row0 ∈ table0, ∃ j, n ≤ j ∧ row0.Shifts[j]? = some k := by
  induction table0 with
  | nil => intro names; simp [tableFill]
  | cons row0 rest ih =>
    intro names
    have hunf : tableFill k (row0 :: rest) names = tableFill k rest (rowFill k names row0) := rfl
    rw [hunf, ih, length_rowFill]
    simp only [List.mem_cons, exists_eq_or_imp]
    generalize (∃ j, n ≤ j ∧ row0.Shifts[j]? = some k) = A
    generalize (∃ a ∈ rest, ∃ j, n ≤ j ∧ a.Shifts[j]? = some k) = B
    tauto

/-! ## Joined names -/

theorem joinName_empty (name : String) : joinName "" name = name := by
  unfold joinName; rw [if_pos (by decide)]

theorem joinName_ne_empty (current name : String) (h : name ≠ "") :
    joinName current name ≠ "" := by
  unfold joinName
  split
  · exact h
  · rename_i hc
    intro he
    have hl := congrArg String.length he
    simp only [String.length_append] at hl
    have : ("" : String).length = 0 := rfl
    omega

/-- A joined slot holds the name that was joined last. -/
theorem joinName_contains (current name : String) :
    ∃ a b : String, joinName current name = a ++ name ++ b := by
  unfold joinName
  split
  · exact ⟨"", "", by simp⟩
  · exact ⟨current ++ "\n", "", by simp [String.append_assoc]⟩

/-- A name that a slot holds stays in it when another name is joined. -/
theorem joinName_keeps (current name x : String)
    (h : ∃ a b : String, current = a ++ x ++ b) :
    ∃ a b : String, joinName current name = a ++ x ++ b := by
  obtain ⟨a, b, rfl⟩ := h
  unfold joinName
  split
  · rename_i hlt
    have he := (string_length_lt_one _).mp hlt
    have hl := congrArg String.length he
    simp only [String.length_append] at hl
    have h0 : ("" : String).length = 0 := rfl
    have hx : x = "" := (string_length_lt_one x).mp (by omega)
    subst hx
    exact ⟨"", name, by simp⟩
  · exact ⟨a, b ++ "\n" ++ name, by simp [String.append_assoc]⟩

theorem foldl_joinName_keeps (x : String) (names : List String) :
    ∀ current : String, (∃ a b : String, current = a ++ x ++ b) →
      ∃ a b : String, names.foldl joinName current = a ++ x ++ b := by
  induction names with
  | nil => intro current h; simpa using h
  | cons n rest ih =>
    intro current h
    rw [List.foldl_cons]
    exact ih _ (joinName_keeps _ _ _ h)

/-- Every name of the list is a part of the joined slot. -/
theorem foldl_joinName_contains (x : String) (names : List String) (hx : x ∈ names) :
    ∀ current : String, ∃ a b : String, names.foldl joinName current = a ++ x ++ b := by
  induction names with
  | nil => simp at hx
  | cons n rest ih =>
    intro current
    rw [List.foldl_cons]
    rcases List.mem_cons.mp hx with h | h
    · subst h
      exact foldl_joinName_keeps _ _ _ (joinName_contains _ _)
    · exact ih h _

theorem foldl_joinName_ne_empty (names : List String) (hne : ∀ x ∈ names, x ≠ "") :
    ∀ current : String, current ≠ "" → names.foldl joinName current ≠ "" := by
  induction names with
  | nil => intro current h; simpa using h
  | cons n rest ih =>
    intro current _
    rw [List.foldl_cons]
    exact ih (fun x hx => hne x (List.mem_cons_of_mem _ hx)) _
      (joinName_ne_empty _ _ (hne n (List.mem_cons_self _ _)))

/-- With non-empty names, the joined slot is empty exactly for the empty list. -/
theorem foldl_joinName_eq_empty (names : List String) (hne : ∀ x ∈ names, x ≠ "") :
    names.foldl joinName "" = "" ↔ names = [] := by
  cases names with
  | nil => simp
  | cons n rest =>
    simp only [List.foldl_cons, reduceCtorEq, iff_false]
    exact foldl_joinName_ne_empty rest (fun x hx => hne x (List.mem_cons_of_mem _ hx)) _
      (joinName_ne_empty _ _ (hne n (List.mem_cons_self _ _)))

/-! ## Discovery and the sort -/

theorem discoverCell_any (table1 : List Table1Row) (cell : Int) :
    (table1.any fun shift => shift.Shift == cell) = true ↔ cell ∈ table1.map Table1Row.Shift := by
  simp only [List.any_eq_true, beq_iff_eq, List.mem_map]

theorem mem_discoverCell (table1 : List Table1Row) (cell v : Int) :
    v ∈ (discoverCell table1 cell).map Table1Row.Shift ↔
      v ∈ table1.map Table1Row.Shift ∨ v = cell := by
  unfold discoverCell
  split
  · rename_i h
    rw [discoverCell_any] at h
    constructor
    · exact Or.inl
    · rintro (h1 | rfl)
      · exact h1
      · exact h
  · simp

theorem nodup_discoverCell (table1 : List Table1Row) (cell : Int)
    (h : (table1.map Table1Row.Shift).Nodup) :
    ((discoverCell table1 cell).map Table1Row.Shift).Nodup := by
  unfold discoverCell
  split
  · exact h
  · rename_i hn
    rw [discoverCell_any] at hn
    rw [List.map_append, List.nodup_append]
    refine ⟨h, by simp, ?_⟩
    intro a ha hb
    simp only [List.map_cons, List.map_nil, List.mem_singleton] at hb
    subst hb
    exact hn ha

theorem names_discoverCell (table1 : List Table1Row) (cell : Int)
    (h : ∀ r ∈ table1, r.Names = []) : ∀ r ∈ discoverCell table1 cell, r.Names = [] := by
  unfold discoverCell
  split
  · exact h
  · intro r hr
    rcases List.mem_append.mp hr with h1 | h1
    · exact h r h1
    · simp only [List.mem_singleton] at h1; subst h1; rfl

/-- The rows found by the scan of lines 99-103: one row, with no names yet, for
every distinct value of the cells. -/
theorem discover_spec (cells : List Int) :
    ∀ table1 : List Table1Row,
      (table1.map Table1Row.Shift).Nodup → (∀ r ∈ table1, r.Names = []) →
        ((cells.foldl discoverCell table1).map Table1Row.Shift).Nodup ∧
        (∀ v, v ∈ (cells.foldl discoverCell table1).map Table1Row.Shift ↔
          v ∈ table1.map Table1Row.Shift ∨ v ∈ cells) ∧
        (∀ r ∈ cells.foldl discoverCell table1, r.Names = []) := by
  induction cells with
  | nil => intro table1 h1 h2; simp [h1]; exact h2
  | cons c rest ih =>
    intro table1 h1 h2
    rw [List.foldl_cons]
    obtain ⟨a, b, d⟩ := ih (discoverCell table1 c) (nodup_discoverCell _ _ h1)
      (names_discoverCell _ _ h2)
    refine ⟨a, ?_, d⟩
    intro v
    rw [b, mem_discoverCell, List.mem_cons]
    tauto

/-- Line 106 leaves the rows in strictly ascending order of `Shift`. -/
theorem sortTable1_sorted (table1 : List Table1Row)
    (h : (table1.map Table1Row.Shift).Nodup) :
    ((sortTable1 table1).map Table1Row.Shift).Sorted (· < ·) := by
  have hs : (sortTable1 table1).Sorted shiftLE := List.sorted_insertionSort shiftLE table1
  have hp : (sortTable1 table1).Perm table1 := List.perm_insertionSort shiftLE table1
  have hle : ((sortTable1 table1).map Table1Row.Shift).Sorted (· ≤ ·) := by
    unfold List.Sorted
    rw [List.pairwise_map]
    exact hs
  exact hle.lt_of_le ((hp.map Table1Row.Shift).nodup_iff.mpr h)

theorem sortTable1_mem (table1 : List Table1Row) (r : Table1Row) :
    r ∈ sortTable1 table1 ↔ r ∈ table1 :=
  (List.perm_insertionSort shiftLE table1).mem_iff

/-! ## `Table0` -/

theorem prepareTables_of_ok (shifted : List String) (matrix : List (List Int)) :
    ∀ (index : Nat) (table0 : List Table0Row) (table1 : List Table1Row)
      (out : List Table0Row × List Table1Row),
      prepareTables shifted index matrix (table0, table1) = .ok out →
        out = (table0 ++ List.zipWith Table0Row.mk (shifted.drop index) matrix,
          matrix.flatten.foldl discoverCell table1) := by
  induction matrix with
  | nil =>
    intro index table0 table1 out h
    simp only [prepareTables, Except.ok.injEq] at h
    simp [← h]
  | cons row rest ih =>
    intro index table0 table1 out h
    rw [prepareTables] at h
    cases hget : shifted[index]? with
    | none => rw [hget] at h; simp at h
    | some name =>
      rw [hget] at h
      simp only at h
      rw [ih _ _ _ _ h]
      obtain ⟨hlt, hn⟩ := List.getElem?_eq_some.mp hget
      have hdrop : shifted.drop index = name :: shifted.drop (index + 1) := by
        rw [← hn]; exact List.drop_eq_getElem_cons hlt
      rw [hdrop]
      simp [List.foldl_append]

theorem prepareTables_ok (shifted : List String) (matrix : List (List Int)) :
    ∀ (index : Nat) (tables : List Table0Row × List Table1Row),
      index + matrix.length ≤ shifted.length →
        ∃ out, prepareTables shifted index matrix tables = .ok out := by
  induction matrix with
  | nil => intro index tables _; exact ⟨tables, by simp [prepareTables]⟩
  | cons row rest ih =>
    intro index tables h
    obtain ⟨table0, table1⟩ := tables
    simp only [List.length_cons] at h
    have hlt : index < shifted.length := by omega
    rw [prepareTables, List.getElem?_eq_getElem hlt]
    exact ih _ _ (by omega)

/-! ## The two tables -/

/-- What `buildTables` returns when it returns: `Table0` pairs the rotated names
with the rows of the matrix, and `Table1` has one row per distinct cell value,
in strictly ascending order, whose `Names` are the fill of an empty list. -/
theorem buildTables_of_ok (teamList : List String) (week : Int) (matrix : List (List Int))
    (table0 : List Table0Row) (table1 : List Table1Row)
    (h : buildTables teamList week matrix = .ok (table0, table1)) :
    (∃ shifted, shiftTeamlist teamList week = .ok shifted ∧
      table0 = List.zipWith Table0Row.mk shifted matrix) ∧
    (table1.map Table1Row.Shift).Sorted (· < ·) ∧
    (∀ v, v ∈ table1.map Table1Row.Shift ↔ v ∈ matrix.flatten) ∧
    (∀ r ∈ table1, r.Names = tableFill r.Shift table0 []) := by
  unfold buildTables at h
  cases hs : shiftTeamlist teamList week with
  | error e => rw [hs] at h; simp [bind, Except.bind] at h
  | ok shifted =>
    rw [hs] at h
    cases hp : prepareTables shifted 0 matrix ([], []) with
    | error e => simp [bind, Except.bind, hp] at h
    | ok out =>
      have hout := prepareTables_of_ok shifted matrix 0 [] [] out hp
      simp only [List.drop_zero, List.nil_append] at hout
      simp only [bind, Except.bind, hp, pure, Except.pure, Except.ok.injEq, Prod.mk.injEq] at h
      obtain ⟨h0, h1⟩ := h
      rw [hout] at h0 h1
      simp only at h0 h1
      obtain ⟨hnd, hmem, hnames⟩ := discover_spec matrix.flatten [] (by simp) (by simp)
      have hshift : table1.map Table1Row.Shift
          = (sortTable1 (matrix.flatten.foldl discoverCell [])).map Table1Row.Shift := by
        rw [← h1, populateTable1_eq, List.map_map]
        rfl
      refine ⟨⟨shifted, rfl, h0.symm⟩, ?_, ?_, ?_⟩
      · rw [hshift]; exact sortTable1_sorted _ hnd
      · intro v
        have hperm : ((sortTable1 (matrix.flatten.foldl discoverCell [])).map
            Table1Row.Shift).Perm ((matrix.flatten.foldl discoverCell []).map Table1Row.Shift) :=
          (List.perm_insertionSort shiftLE _).map Table1Row.Shift
        rw [hshift, hperm.mem_iff, hmem]
        simp
      · intro r hr
        rw [← h1, populateTable1_eq, List.mem_map] at hr
        obtain ⟨r0, hr0, rfl⟩ := hr
        have := hnames r0 ((sortTable1_mem _ _).mp hr0)
        simp only [this, h0]

/-- The tables are returned whenever the team is not empty, the week is not
negative and the matrix has no more rows than the team has members. -/
theorem buildTables_ok (teamList : List String) (week : Int) (matrix : List (List Int))
    (hN : 0 < teamList.length) (hw : 0 ≤ week) (hrows : matrix.length ≤ teamList.length) :
    ∃ table0 table1, buildTables teamList week matrix = .ok (table0, table1) := by
  unfold buildTables
  rw [shiftTeamlist_eq_rotate teamList week hN hw]
  obtain ⟨out, hout⟩ := prepareTables_ok (teamList.rotate (week.toNat % teamList.length))
    matrix 0 ([], []) (by simpa using hrows)
  exact ⟨out.1, populateTable1 out.1 (sortTable1 out.2), by
    simp [bind, Except.bind, hout, pure, Except.pure]⟩

/-! ## Rows of `Table0` and rows of the matrix -/

theorem table0_getElem? (shifted : List String) (matrix : List (List Int)) (i : Nat)
    (row0 : Table0Row) :
    (List.zipWith Table0Row.mk shifted matrix)[i]? = some row0 ↔
      shifted[i]? = some row0.Name ∧ matrix[i]? = some row0.Shifts := by
  rw [List.getElem?_zipWith_eq_some]
  constructor
  · rintro ⟨x, y, hx, hy, rfl⟩; exact ⟨hx, hy⟩
  · rintro ⟨hx, hy⟩; exact ⟨_, _, hx, hy, rfl⟩

/-- With one name per row of the matrix, the rows of `Table0` are the rows of
the matrix. -/
theorem exists_table0_iff (shifted : List String) (matrix : List (List Int))
    (hlen : matrix.length = shifted.length) (P : List Int → Prop) :
    (∃ row0 ∈ List.zipWith Table0Row.mk shifted matrix, P row0.Shifts) ↔
      ∃ (i : Nat) (row : List Int), matrix[i]? = some row ∧ P row := by
  constructor
  · rintro ⟨row0, hmem, hP⟩
    obtain ⟨i, hi⟩ := List.mem_iff_getElem?.mp hmem
    exact ⟨i, row0.Shifts, ((table0_getElem? _ _ _ _).mp hi).2, hP⟩
  · rintro ⟨i, row, hrow, hP⟩
    obtain ⟨hi, _⟩ := List.getElem?_eq_some.mp hrow
    have hs : shifted[i]? = some shifted[i] := List.getElem?_eq_getElem (by omega)
    refine ⟨⟨shifted[i], row⟩, ?_, hP⟩
    exact List.mem_iff_getElem?.mpr ⟨i, (table0_getElem? _ _ _ _).mpr ⟨hs, hrow⟩⟩

/-! ## Two list facts about `filter` -/

theorem filter_eq_single {α : Type} (p : α → Bool) :
    ∀ (l : List α) (i : Nat) (a : α), l[i]? = some a → p a = true →
      (∀ n x, l[n]? = some x → p x = true → n = i) → l.filter p = [a] := by
  intro l
  induction l with
  | nil => intro i a h; simp at h
  | cons x xs ih =>
    intro i a h hp honly
    cases i with
    | zero =>
      simp only [List.getElem?_cons_zero, Option.some.injEq] at h
      subst h
      rw [List.filter_cons_of_pos hp]
      congr 1
      apply List.filter_eq_nil_iff.mpr
      intro y hy hpy
      obtain ⟨n, hn⟩ := List.mem_iff_getElem?.mp hy
      have := honly (n + 1) y (by simpa using hn) hpy
      omega
    | succ i =>
      have hx : ¬ p x = true := by
        intro hpx
        have := honly 0 x (by simp) hpx
        omega
      rw [List.filter_cons_of_neg hx]
      apply ih i a (by simpa using h) hp
      intro n y hn hpy
      have := honly (n + 1) y (by simpa using hn) hpy
      omega

theorem filter_eq_pair {α : Type} (p : α → Bool) :
    ∀ (l : List α) (i1 i2 : Nat) (a b : α), i1 < i2 → l[i1]? = some a → l[i2]? = some b →
      p a = true → p b = true →
      (∀ n x, l[n]? = some x → p x = true → n = i1 ∨ n = i2) → l.filter p = [a, b] := by
  intro l
  induction l with
  | nil => intro i1 i2 a b _ h; simp at h
  | cons x xs ih =>
    intro i1 i2 a b hlt h1 h2 hpa hpb honly
    obtain ⟨m, rfl⟩ : ∃ m, i2 = m + 1 := ⟨i2 - 1, by omega⟩
    rw [List.getElem?_cons_succ] at h2
    cases i1 with
    | zero =>
      simp only [List.getElem?_cons_zero, Option.some.injEq] at h1
      subst h1
      rw [List.filter_cons_of_pos hpa]
      congr 1
      apply filter_eq_single p xs m b h2 hpb
      intro n y hn hpy
      have := honly (n + 1) y (by simpa using hn) hpy
      omega
    | succ i =>
      have hx : ¬ p x = true := by
        intro hpx
        have := honly 0 x (by simp) hpx
        omega
      rw [List.filter_cons_of_neg hx]
      apply ih i m a b (by omega) (by simpa using h1) h2 hpa hpb
      intro n y hn hpy
      have := honly (n + 1) y (by simpa using hn) hpy
      omega

/-! ## The joined slot as a list joined with line breaks -/

theorem foldl_joinName_go (names : List String) :
    ∀ current : String, current ≠ "" →
      names.foldl joinName current = String.intercalate.go current "\n" names := by
  induction names with
  | nil => intro current _; rfl
  | cons n rest ih =>
    intro current hne
    have hnot : ¬ current.length < 1 := fun h => hne ((string_length_lt_one _).mp h)
    have hjoin : joinName current n = current ++ "\n" ++ n := by
      unfold joinName; rw [if_neg hnot]
    have hne2 : current ++ "\n" ++ n ≠ "" := by
      rw [← hjoin]
      intro he
      have hl := congrArg String.length he
      rw [hjoin] at hl
      simp only [String.length_append] at hl
      have h0 : ("" : String).length = 0 := rfl
      have h1 : ("\n" : String).length = 1 := rfl
      omega
    rw [List.foldl_cons, hjoin, String.intercalate.go, ih _ hne2]

/-- When the first name is not empty, the joined slot is the list of names with
a line break between neighbours. -/
theorem foldl_joinName_intercalate (names : List String) (h : names.head? ≠ some "") :
    names.foldl joinName "" = "\n".intercalate names := by
  cases names with
  | nil => rfl
  | cons n rest =>
    have hn : n ≠ "" := fun he => h (by rw [he]; rfl)
    rw [List.foldl_cons, joinName_empty, String.intercalate]
    exact foldl_joinName_go rest n hn

theorem sublist_pair {α : Type} : ∀ (l : List α) (i1 i2 : Nat) (a b : α), i1 < i2 →
    l[i1]? = some a → l[i2]? = some b → [a, b].Sublist l := by
  intro l
  induction l with
  | nil => intro i1 i2 a b _ h; simp at h
  | cons x xs ih =>
    intro i1 i2 a b hlt h1 h2
    obtain ⟨m, rfl⟩ : ∃ m, i2 = m + 1 := ⟨i2 - 1, by omega⟩
    rw [List.getElem?_cons_succ] at h2
    cases i1 with
    | zero =>
      simp only [List.getElem?_cons_zero, Option.some.injEq] at h1
      subst h1
      exact List.Sublist.cons₂ _ (List.singleton_sublist.mpr (List.mem_iff_getElem?.mpr ⟨m, h2⟩))
    | succ i =>
      exact List.Sublist.cons _ (ih i m a b (by omega) (by simpa using h1) h2)

theorem shiftTeamlist_ok_length (teamList : List String) (week : Int)
    (hN : 0 < teamList.length) (hw : 0 ≤ week) (shifted : List String)
    (h : shiftTeamlist teamList week = .ok shifted) :
    shifted = teamList.rotate (week.toNat % teamList.length) ∧
      shifted.length = teamList.length := by
  rw [shiftTeamlist_eq_rotate teamList week hN hw] at h
  injection h with h
  subst h
  exact ⟨rfl, List.length_rotate _ _⟩

/-! ## The dates of the week -/

theorem addDate_seven (t : Time) : t.AddDate 7 = ⟨t.abs + 7⟩ := by
  unfold Time.AddDate
  congr 1

theorem addDate_six (t : Time) : t.AddDate 6 = ⟨t.abs + 6⟩ := by
  unfold Time.AddDate
  congr 1

theorem addDate_minus_one (t : Time) : t.AddDate (-1) = ⟨t.abs - 1⟩ := by
  unfold Time.AddDate
  congr 1
  omega

/-- The Thursday of the week of `t`, as `ISOWeek` computes it. -/
theorem isoWeek_eq (t : Time) :
    t.ISOWeek = ((Time.absDate ⟨t.abs - t.abs % 7 + 3⟩).1,
      (Time.absDate ⟨t.abs - t.abs % 7 + 3⟩).2 / 7 + 1) := by
  have h : (if t.Weekday = 0 then t.AddDate (-3) else t.AddDate (4 - (t.Weekday : Int)))
      = ⟨t.abs - t.abs % 7 + 3⟩ := by
    unfold Time.Weekday Time.AddDate
    split
    · congr 1; omega
    · congr 1; omega
  unfold Time.ISOWeek
  simp only [h]

/-- The loop of line 75 ends on the Monday of the week of its start. -/
theorem seekMonday_eq : ∀ (fuel : Nat) (t : Time), t.abs % 7 < fuel →
    seekMonday fuel t = .ok ⟨t.abs - t.abs % 7⟩ := by
  intro fuel
  induction fuel with
  | zero => intro t h; omega
  | succ fuel ih =>
    intro t h
    unfold seekMonday
    by_cases hwd : t.Weekday ≠ 1
    · have hmod : t.abs % 7 ≠ 0 := by
        unfold Time.Weekday at hwd; omega
      have hlt : (⟨t.abs - 1⟩ : Time).abs % 7 < fuel := by
        show (t.abs - 1) % 7 < fuel
        omega
      rw [if_pos hwd, addDate_minus_one, ih _ hlt]
      congr 2
      show t.abs - 1 - (t.abs - 1) % 7 = t.abs - t.abs % 7
      omega
    · have hmod : t.abs % 7 = 0 := by
        unfold Time.Weekday at hwd; omega
      rw [if_neg hwd]
      obtain ⟨a⟩ := t
      simp only at hmod ⊢
      rw [hmod, Nat.sub_zero]

/-- The loop of lines 70-73 ends within `n + 1` turns when the date `7 * n`
days after the start lies in another ISO year. -/
theorem seekWeek_total (year week : Int) : ∀ (n fuel : Nat) (t : Time), n < fuel →
    ((Time.ISOWeek ⟨t.abs + 7 * n⟩).1 : Int) ≠ year →
      ∃ r, seekWeek year week fuel t = .ok r ∧
        ¬ ((r.ISOWeek.1 : Int) = year ∧ (r.ISOWeek.2 : Int) ≠ week) := by
  intro n
  induction n with
  | zero =>
    intro fuel t hf hy
    obtain ⟨f, rfl⟩ : ∃ f, fuel = f + 1 := ⟨fuel - 1, by omega⟩
    have ht : (⟨t.abs + 7 * 0⟩ : Time) = t := by simp
    rw [ht] at hy
    have hc : ¬ ((t.ISOWeek.1 : Int) = year ∧ (t.ISOWeek.2 : Int) ≠ week) :=
      fun h => hy h.1
    exact ⟨t, by simp only [seekWeek, if_neg hc], hc⟩
  | succ n ih =>
    intro fuel t hf hy
    obtain ⟨f, rfl⟩ : ∃ f, fuel = f + 1 := ⟨fuel - 1, by omega⟩
    by_cases hc : (t.ISOWeek.1 : Int) = year ∧ (t.ISOWeek.2 : Int) ≠ week
    · have hnext : (⟨(t.AddDate 7).abs + 7 * n⟩ : Time) = ⟨t.abs + 7 * (n + 1)⟩ := by
        rw [addDate_seven]; congr 1; simp only; omega
      obtain ⟨r, hr, hrc⟩ := ih f (t.AddDate 7) (by omega) (by rw [hnext]; exact hy)
      exact ⟨r, by simp only [seekWeek, if_pos hc, hr], hrc⟩
    · exact ⟨t, by simp only [seekWeek, if_neg hc], hc⟩

/-- The loop of lines 70-73 stops on the first of the dates `t`, `t + 7`,
`t + 14`, ... that fails its guard, and that is one of the first `n + 1` of
them when the date `7 * n` days after `t` lies in another ISO year. -/
theorem seekWeek_scan (year week : Int) : ∀ (n fuel : Nat) (t : Time), n < fuel →
    ((Time.ISOWeek ⟨t.abs + 7 * n⟩).1 : Int) ≠ year →
      ∃ m, m ≤ n ∧ seekWeek year week fuel t = .ok ⟨t.abs + 7 * m⟩ ∧
        ¬ (((Time.ISOWeek ⟨t.abs + 7 * m⟩).1 : Int) = year ∧
          ((Time.ISOWeek ⟨t.abs + 7 * m⟩).2 : Int) ≠ week) ∧
        ∀ i, i < m → ((Time.ISOWeek ⟨t.abs + 7 * i⟩).1 : Int) = year ∧
          ((Time.ISOWeek ⟨t.abs + 7 * i⟩).2 : Int) ≠ week := by
  intro n
  induction n with
  | zero =>
    intro fuel t hf hy
    obtain ⟨f, rfl⟩ : ∃ f, fuel = f + 1 := ⟨fuel - 1, by omega⟩
    have ht : (⟨t.abs + 7 * 0⟩ : Time) = t := by simp
    rw [ht] at hy
    have hc : ¬ ((t.ISOWeek.1 : Int) = year ∧ (t.ISOWeek.2 : Int) ≠ week) :=
      fun h => hy h.1
    refine ⟨0, le_refl 0, ?_, ?_, fun i hi => absurd hi (Nat.not_lt_zero i)⟩
    · rw [ht]; simp only [seekWeek, if_neg hc]
    · rw [ht]; exact hc
  | succ n ih =>
    intro fuel t hf hy
    obtain ⟨f, rfl⟩ : ∃ f, fuel = f + 1 := ⟨fuel - 1, by omega⟩
    have ht : (⟨t.abs + 7 * 0⟩ : Time) = t := by simp
    by_cases hc : (t.ISOWeek.1 : Int) = year ∧ (t.ISOWeek.2 : Int) ≠ week
    · have hshift : ∀ i, (⟨(t.AddDate 7).abs + 7 * i⟩ : Time) = ⟨t.abs + 7 * (i + 1)⟩ := by
        intro i
        rw [addDate_seven]; congr 1; simp only; omega
      obtain ⟨m, hm, hr, hstop, hbefore⟩ := ih f (t.AddDate 7) (by omega)
        (by rw [hshift]; exact hy)
      rw [hshift] at hr hstop
      refine ⟨m + 1, by omega, by simp only [seekWeek, if_pos hc, hr], hstop, ?_⟩
      intro i hi
      cases i with
      | zero => rw [ht]; exact hc
      | succ i =>
        have := hbefore i (by omega)
        rw [hshift] at this
        exact this
    · refine ⟨0, Nat.zero_le _, ?_, ?_, fun i hi => absurd hi (Nat.not_lt_zero i)⟩
      · rw [ht]; simp only [seekWeek, if_neg hc]
      · rw [ht]; exact hc

theorem isoWeek_monday (t : Time) : Time.ISOWeek ⟨t.abs - t.abs % 7⟩ = t.ISOWeek := by
  rw [isoWeek_eq, isoWeek_eq t]
  have h : (⟨t.abs - t.abs % 7⟩ : Time).abs - (⟨t.abs - t.abs % 7⟩ : Time).abs % 7
      = t.abs - t.abs % 7 := by
    simp only; omega
  rw [h]

theorem no_week_53_in_2018 (t : Time) : t.ISOWeek ≠ (2018, 53) := by
  rw [isoWeek_eq]
  have hd : (t.abs - t.abs % 7 + 3) % 7 = 3 := by omega
  generalize t.abs - t.abs % 7 + 3 = d at hd
  unfold Time.absDate daysPer400Years daysPer100Years daysPer4Years
  simp only [ne_eq, Prod.mk.injEq, not_and]
  generalize h1 : d / (365 * 400 + 97) = n1
  generalize h2 : d - (365 * 400 + 97) * n1 = d1
  generalize h3 : d1 / (365 * 100 + 24) = n2
  generalize h4 : d1 - (365 * 100 + 24) * (n2 - n2 / 4) = d2
  generalize h5 : d2 / (365 * 4 + 1) = n3
  generalize h6 : d2 - (365 * 4 + 1) * n3 = d3
  generalize h7 : d3 / 365 = n4
  have c1 : d1 < 146097 := by omega
  have c2 : n2 ≤ 4 := by omega
  have b2 : n2 - n2 / 4 ≤ 3 := by omega
  have c3 : d2 ≤ 36524 := by omega
  have b3 : n3 ≤ 24 := by omega
  have c4 : d3 ≤ 1460 := by omega
  have c5 : n4 ≤ 4 := by omega
  have b4 : n4 - n4 / 4 ≤ 3 := by omega
  intro hy hw
  have e1 : n1 = 5 := by omega
  have e2 : n2 - n2 / 4 = 0 := by omega
  have e3 : n3 = 4 := by omega
  have e4 : n4 - n4 / 4 = 1 := by omega
  have e5 : n4 = 1 := by omega
  rw [e4] at hw
  omega

/-- A date 53 weeks after 1 January lies in another ISO year. -/
theorem year_ends (year : Int) (hy : 2018 ≤ year ∧ year ≤ 2025) :
    ((Time.ISOWeek ⟨(Date year.toNat 1 1).abs + 7 * 53⟩).1 : Int) ≠ year := by
  obtain ⟨h1, h2⟩ := hy
  interval_cases year <;> decide

/-- The value of `weekDates` in terms of the date on which the scan stops. -/
theorem weekDates_of_seekWeek (fuel : Nat) (year week : Int) (r : Time) (hfuel : 7 ≤ fuel)
    (h : seekWeek year week fuel (Date year.toNat 1 1) = .ok r) :
    weekDates fuel year week = .ok (⟨r.abs - r.abs % 7⟩, ⟨r.abs - r.abs % 7 + 6⟩) := by
  have hm : seekMonday fuel r = .ok ⟨r.abs - r.abs % 7⟩ :=
    seekMonday_eq fuel r (by omega)
  simp only [weekDates, h, hm, bind, Except.bind, pure, Except.pure, addDate_six]

/-- The scan of lines 67-76 returns for every year of the admitted range. -/
theorem weekDates_ok (fuel : Nat) (year week : Int) (hy : 2018 ≤ year ∧ year ≤ 2025)
    (hfuel : 54 ≤ fuel) :
    ∃ r : Time, ¬ ((r.ISOWeek.1 : Int) = year ∧ (r.ISOWeek.2 : Int) ≠ week) ∧
      weekDates fuel year week = .ok (⟨r.abs - r.abs % 7⟩, ⟨r.abs - r.abs % 7 + 6⟩) := by
  obtain ⟨r, hr, hc⟩ := seekWeek_total year week 53 fuel (Date year.toNat 1 1) (by omega)
    (year_ends year hy)
  exact ⟨r, hc, weekDates_of_seekWeek fuel year week r (by omega) hr⟩

/-- What `rosterWeek` returns when it returns. -/
theorem rosterWeek_of_ok (fuel : Nat) (config : DatasetConfig) (year week : Int)
    (out : TemplateOut) (h : rosterWeek fuel config year week = .ok out) :
    buildTables config.TeamList week config.RosterMatrix = .ok (out.Table0, out.Table1) ∧
      (2018 ≤ year ∧ year ≤ 2025) ∧ (1 ≤ week ∧ week ≤ 55) := by
  unfold rosterWeek at h
  by_cases hy : year < 2018 ∨ year > 2025
  · simp [hy, bind, Except.bind, throw, throwThe, MonadExceptOf.throw] at h
  · by_cases hwk : week < 1 ∨ week > 55
    · simp [hy, hwk, bind, Except.bind, throw, throwThe, MonadExceptOf.throw,
        pure, Except.pure] at h
    · cases hd : weekDates fuel year week with
      | error e => simp [hy, hwk, hd, bind, Except.bind, pure, Except.pure] at h
      | ok dates =>
        cases hb : buildTables config.TeamList week config.RosterMatrix with
        | error e => simp [hy, hwk, hd, hb, bind, Except.bind, pure, Except.pure] at h
        | ok tables =>
          simp only [hy, hwk, hd, hb, bind, Except.bind, pure, Except.pure, if_false,
            Except.ok.injEq] at h
          subst h
          exact ⟨rfl, by omega, by omega⟩

/-- The program reaches the template for arguments in the admitted ranges, a
team that is not empty and a matrix with no more rows than the team. -/
theorem rosterWeek_ok (fuel : Nat) (config : DatasetConfig) (year week : Int)
    (hfuel : 54 ≤ fuel) (hy : 2018 ≤ year ∧ year ≤ 2025) (hw : 1 ≤ week ∧ week ≤ 55)
    (hN : 0 < config.TeamList.length)
    (hrows : config.RosterMatrix.length ≤ config.TeamList.length) :
    ∃ out, rosterWeek fuel config year week = .ok out := by
  obtain ⟨r, _, hd⟩ := weekDates_ok fuel year week hy hfuel
  obtain ⟨table0, table1, hb⟩ := buildTables_ok config.TeamList week config.RosterMatrix hN
    (by omega) hrows
  have hy1 : ¬ (year < 2018 ∨ year > 2025) := by omega
  have hw1 : ¬ (week < 1 ∨ week > 55) := by omega
  unfold rosterWeek
  simp only [hy1, hw1, hd, hb, bind, Except.bind, pure, Except.pure, if_false]
  exact ⟨_, rfl⟩

theorem seekWeek_more_fuel (year week : Int) (r : Time) : ∀ (fuel extra : Nat) (t : Time),
    seekWeek year week fuel t = .ok r → seekWeek year week (fuel + extra) t = .ok r := by
  intro fuel
  induction fuel with
  | zero => intro extra t h; simp [seekWeek] at h
  | succ fuel ih =>
    intro extra t h
    have hadd : fuel + 1 + extra = (fuel + extra) + 1 := by omega
    rw [hadd]
    by_cases hc : (t.ISOWeek.1 : Int) = year ∧ (t.ISOWeek.2 : Int) ≠ week
    · simp only [seekWeek, if_pos hc] at h ⊢
      exact ih extra _ h
    · simp only [seekWeek, if_neg hc] at h ⊢
      exact h

set_option maxRecDepth 100000 in
/-- In the years of the admitted range whose 1 January lies in ISO week 1, the
scan stops on a date of the requested week, for every week of the year. -/
theorem seekWeek_finds_week :
    ∀ year ∈ [2018, 2019, 2020, 2024, 2025], ∀ w ∈ List.range 53,
      w + 1 ≤ (Date year 12 28).ISOWeek.2 →
        seekWeek (year : Nat) ((w + 1 : Nat) : Int) 54 (Date year 1 1)
          = .ok ⟨(Date year 1 1).abs + 7 * w⟩ ∧
        (Time.ISOWeek ⟨(Date year 1 1).abs + 7 * w⟩) = (year, w + 1) := by
  decide

/-- Where C7 holds: in the years of the admitted range whose 1 January lies in
ISO week 1 (2018, 2019, 2020, 2024, 2025) and for every ISO week of the year,
`weekMonday` is the Monday of the requested week of the requested year and
`weekSunday` is six days later. -/
theorem weekDates_right_when_year_starts_in_week_one (fuel year w : Nat) (hfuel : 54 ≤ fuel)
    (hyear : year ∈ [2018, 2019, 2020, 2024, 2025])
    (hweek : w + 1 ≤ (Date year 12 28).ISOWeek.2) :
    ∃ weekMonday : Time,
      weekDates fuel (year : Int) ((w + 1 : Nat) : Int)
        = .ok (weekMonday, ⟨weekMonday.abs + 6⟩) ∧
      weekMonday.Weekday = 1 ∧ weekMonday.ISOWeek = (year, w + 1) := by
  have hw : w ∈ List.range 53 := by
    have hmax : (Date year 12 28).ISOWeek.2 ≤ 53 := by
      simp only [List.mem_cons, List.mem_singleton, List.not_mem_nil, or_false] at hyear
      rcases hyear with h | h | h | h | h <;> subst h <;> decide
    exact List.mem_range.mpr (by omega)
  obtain ⟨hseek, hiso⟩ := seekWeek_finds_week year hyear w hw hweek
  obtain ⟨extra, rfl⟩ : ∃ extra, fuel = 54 + extra := ⟨fuel - 54, by omega⟩
  have hseek2 := seekWeek_more_fuel _ _ _ 54 extra _ hseek
  have hd := weekDates_of_seekWeek (54 + extra) (year : Int) ((w + 1 : Nat) : Int) _
    (by omega) (by simpa using hseek2)
  refine ⟨_, hd, ?_, ?_⟩
  · show ((Date year 1 1).abs + 7 * w - ((Date year 1 1).abs + 7 * w) % 7 + 1) % 7 = 1
    omega
  · rw [isoWeek_monday]; exact hiso

/-! # The claims -/

/-! ## The claims about the rotation -/

/-- C5: for a team list of length `N > 0` and a week number (not negative, as
line 65 admits only 1..55) the rotated list has length `N` and its element at
position `i` is `teamList[(week + i) mod N]`, for every `i < N`. -/
theorem shiftTeamlist_left_rotation (teamList : List String) (week : Int)
    (hN : 0 < teamList.length) (hw : 0 ≤ week) :
    ∃ shifted, shiftTeamlist teamList week = .ok shifted ∧
      shifted.length = teamList.length ∧
      ∀ i, i < teamList.length →
        ∃ name, shifted[i]? = some name ∧
          teamList[((week + (i : Int)) % (teamList.length : Int)).toNat]? = some name := by
  refine ⟨_, shiftTeamlist_eq_rotate teamList week hN hw, List.length_rotate _ _, ?_⟩
  intro i hi
  have hidx : ((week + (i : Int)) % (teamList.length : Int)).toNat
      = (i + week.toNat % teamList.length) % teamList.length := by
    obtain ⟨w, rfl⟩ := Int.eq_ofNat_of_zero_le hw
    have h1 : ((w : Int) + (i : Int)) % (teamList.length : Int)
        = (((w + i) % teamList.length : Nat) : Int) := by push_cast; rfl
    rw [h1, Int.toNat_ofNat, Int.toNat_ofNat, Nat.add_mod_mod, Nat.add_comm]
  have hlt : (i + week.toNat % teamList.length) % teamList.length < teamList.length :=
    Nat.mod_lt _ hN
  refine ⟨teamList[(i + week.toNat % teamList.length) % teamList.length], ?_, ?_⟩
  · rw [List.getElem?_rotate hi, List.getElem?_eq_getElem hlt]
  · rw [hidx, List.getElem?_eq_getElem hlt]

theorem shiftTeamlist_left_rotation_witness :
    ∃ shifted, shiftTeamlist ["A", "B", "C"] 4 = .ok shifted ∧
      shifted.length = ["A", "B", "C"].length ∧
      ∀ i, i < ["A", "B", "C"].length →
        ∃ name, shifted[i]? = some name ∧
          ["A", "B", "C"][((4 + (i : Int)) % (["A", "B", "C"].length : Int)).toNat]?
            = some name :=
  shiftTeamlist_left_rotation ["A", "B", "C"] 4 (by decide) (by decide)

/-- C6: for a team list of length `N > 0` and a week number the rotated list is
a permutation of the team list, and the weeks `week` and `week + N` give the
same rotated list. -/
theorem shiftTeamlist_perm_period (teamList : List String) (week : Int)
    (hN : 0 < teamList.length) (hw : 0 ≤ week) :
    ∃ shifted, shiftTeamlist teamList week = .ok shifted ∧
      shifted.Perm teamList ∧
      shiftTeamlist teamList (week + (teamList.length : Int)) = .ok shifted := by
  refine ⟨_, shiftTeamlist_eq_rotate teamList week hN hw, List.rotate_perm _ _, ?_⟩
  rw [shiftTeamlist_eq_rotate teamList _ hN (by omega)]
  obtain ⟨w, rfl⟩ := Int.eq_ofNat_of_zero_le hw
  have h1 : ((w : Int) + (teamList.length : Int)).toNat = w + teamList.length := by
    rw [← Int.ofNat_add, Int.toNat_ofNat]
  rw [h1, Int.toNat_ofNat, Nat.add_mod_right]

theorem shiftTeamlist_perm_period_witness :
    ∃ shifted, shiftTeamlist ["A", "B", "C"] 4 = .ok shifted ∧
      shifted.Perm ["A", "B", "C"] ∧
      shiftTeamlist ["A", "B", "C"] (4 + ((["A", "B", "C"] : List String).length : Int))
        = .ok shifted :=
  shiftTeamlist_perm_period ["A", "B", "C"] 4 (by decide) (by decide)

/-- C10, amended: for every week number an empty team list yields no rotated
list, no tables and no output.  For arguments that pass the range checks the
run ends at the division `week % 0` of line 79, which is a runtime panic and
not one of the failures that the program reports; an `EmptyRoster` failure
does not exist. -/
theorem empty_team_panics (week : Int) :
    shiftTeamlist [] week = .error .integerDivideByZero ∧
    (∀ matrix, buildTables [] week matrix = .error .integerDivideByZero) ∧
    (∀ (fuel : Nat) title shifts matrix (year : Int),
      54 ≤ fuel → 2018 ≤ year ∧ year ≤ 2025 → 1 ≤ week ∧ week ≤ 55 →
        rosterWeek fuel ⟨title, shifts, [], matrix⟩ year week
          = .error .integerDivideByZero) ∧
    (∀ (fuel : Nat) title shifts matrix (year : Int) out,
      rosterWeek fuel ⟨title, shifts, [], matrix⟩ year week ≠ .ok out) ∧
    Failure.integerDivideByZero.isPanic = true ∧
    Failure.integerDivideByZero.isReported = false := by
  refine ⟨rfl, fun _ => rfl, ?_, ?_, rfl, rfl⟩
  · intro fuel title shifts matrix year hfuel hy hwk
    obtain ⟨r, _, hd⟩ := weekDates_ok fuel year week hy hfuel
    have hy1 : ¬ (year < 2018 ∨ year > 2025) := by omega
    have hw1 : ¬ (week < 1 ∨ week > 55) := by omega
    have hb : buildTables [] week matrix = .error .integerDivideByZero := rfl
    unfold rosterWeek
    simp only [hy1, hw1, hd, hb, bind, Except.bind, pure, Except.pure, if_false]
  · intro fuel title shifts matrix year out hout
    have hb := (rosterWeek_of_ok _ _ _ _ _ hout).1
    have hb2 : buildTables [] week matrix = .error .integerDivideByZero := rfl
    simp only at hb
    rw [hb2] at hb
    exact absurd hb (by simp)

theorem empty_team_panics_witness :
    rosterWeek 54 ⟨"roster", [⟨1, "06:00", "14:00"⟩], [], [[1, 1]]⟩ 2024 7
      = .error .integerDivideByZero :=
  (empty_team_panics 7).2.2.1 54 "roster" [⟨1, "06:00", "14:00"⟩] [[1, 1]] 2024
    (by decide) (by decide) (by decide)

/-- C10, as the claim has it, fails: the rotation of the empty team list in
week 1 ends in a panic, not in a failure that the program reports. -/
theorem empty_team_not_reported :
    shiftTeamlist [] 1 = .error .integerDivideByZero ∧
      ¬ ∃ e, shiftTeamlist [] 1 = .error e ∧ e.isReported = true := by
  refine ⟨rfl, ?_⟩
  rintro ⟨e, he, hr⟩
  have h : e = Failure.integerDivideByZero := by
    have h1 : shiftTeamlist [] 1 = .error .integerDivideByZero := rfl
    rw [h1] at he
    injection he with he
    exact he.symm
  subst h
  exact absurd hr (by decide)

/-! ## The claims about the pivot -/

/-- C1 (pivot round-trip): for a team list of `N > 0` names, a week number and a
matrix with `N` rows, both tables are returned, and for every cell `(i, j)` of
the matrix `Table1` has a row whose `Shift` is the cell, whose `Names` has an
entry at index `j`, and that entry contains the name of row `i` of `Table0`
(the `i`-th rotated name), alone or joined with other names. -/
theorem pivot_round_trip (teamList : List String) (week : Int) (matrix : List (List Int))
    (hN : 0 < teamList.length) (hw : 0 ≤ week) (hrows : matrix.length = teamList.length) :
    ∃ shifted table0 table1,
      shiftTeamlist teamList week = .ok shifted ∧
      buildTables teamList week matrix = .ok (table0, table1) ∧
      ∀ (i j : Nat) (row : List Int) (cell : Int),
        matrix[i]? = some row → row[j]? = some cell →
          ∃ name, shifted[i]? = some name ∧ table0[i]? = some ⟨name, row⟩ ∧
            ∃ row1 ∈ table1, row1.Shift = cell ∧
              ∃ entry, row1.Names[j]? = some entry ∧
                ∃ a b : String, entry = a ++ name ++ b := by
  obtain ⟨table0, table1, hb⟩ := buildTables_ok teamList week matrix hN hw (by omega)
  obtain ⟨⟨shifted, hs, h0⟩, _, hmem, hnames⟩ := buildTables_of_ok _ _ _ _ _ hb
  obtain ⟨_, hlen⟩ := shiftTeamlist_ok_length teamList week hN hw shifted hs
  refine ⟨shifted, table0, table1, hs, hb, ?_⟩
  intro i j row cell hrow hcell
  obtain ⟨hi, _⟩ := List.getElem?_eq_some.mp hrow
  have hname : shifted[i]? = some shifted[i] := List.getElem?_eq_getElem (by omega)
  have ht0 : table0[i]? = some ⟨shifted[i], row⟩ := by
    rw [h0]; exact (table0_getElem? _ _ _ _).mpr ⟨hname, hrow⟩
  have hin : (⟨shifted[i], row⟩ : Table0Row) ∈ table0 :=
    List.mem_iff_getElem?.mpr ⟨i, ht0⟩
  have hflat : cell ∈ matrix.flatten :=
    List.mem_flatten.mpr ⟨row, List.mem_iff_getElem?.mpr ⟨i, hrow⟩,
      List.mem_iff_getElem?.mpr ⟨j, hcell⟩⟩
  obtain ⟨row1, hrow1, hshift⟩ := List.mem_map.mp ((hmem cell).mpr hflat)
  have hN1 := hnames row1 hrow1
  rw [hshift] at hN1
  have hjlt : j < row1.Names.length := by
    rw [hN1, length_tableFill]
    exact Or.inr ⟨_, hin, j, le_refl j, hcell⟩
  refine ⟨shifted[i], hname, ht0, row1, hrow1, hshift, row1.Names[j],
    List.getElem?_eq_getElem hjlt, ?_⟩
  have hentry : row1.Names[j] = row1.Names.getD j "" := by
    rw [List.getD_eq_getElem _ _ hjlt]
  rw [hentry, hN1, getD_tableFill]
  apply foldl_joinName_contains
  apply List.mem_map.mpr
  exact ⟨⟨shifted[i], row⟩, List.mem_filter.mpr ⟨hin, by simpa using hcell⟩, rfl⟩

theorem pivot_round_trip_witness :
    ∃ shifted table0 table1,
      shiftTeamlist ["A", "B", "C"] 4 = .ok shifted ∧
      buildTables ["A", "B", "C"] 4 [[1, 2], [1, 1], [2, 1]] = .ok (table0, table1) ∧
      ∀ (i j : Nat) (row : List Int) (cell : Int),
        [[1, 2], [1, 1], [2, 1]][i]? = some row → row[j]? = some cell →
          ∃ name, shifted[i]? = some name ∧ table0[i]? = some ⟨name, row⟩ ∧
            ∃ row1 ∈ table1, row1.Shift = cell ∧
              ∃ entry, row1.Names[j]? = some entry ∧
                ∃ a b : String, entry = a ++ name ++ b :=
  pivot_round_trip ["A", "B", "C"] 4 [[1, 2], [1, 1], [2, 1]] (by decide) (by decide)
    (by decide)

/-- C2 (discovery completeness): the program reaches the template whenever the
arguments are in range, the team is not empty and the matrix has no more rows
than the team; and whenever it does, every value of the matrix is the `Shift`
of exactly one row of `Table1`, the `Shift` of every row of `Table1` is a value
of the matrix, and so a shift of the catalog that is absent from the matrix has
no row. -/
theorem discovery_complete (fuel : Nat) (config : DatasetConfig) (year week : Int) :
    (54 ≤ fuel → 2018 ≤ year ∧ year ≤ 2025 → 1 ≤ week ∧ week ≤ 55 →
      0 < config.TeamList.length →
      config.RosterMatrix.length ≤ config.TeamList.length →
      ∃ out, rosterWeek fuel config year week = .ok out) ∧
    ∀ out, rosterWeek fuel config year week = .ok out →
      (∀ v ∈ config.RosterMatrix.flatten,
        out.Table1.countP (fun row1 => row1.Shift = v) = 1) ∧
      (∀ row1 ∈ out.Table1, row1.Shift ∈ config.RosterMatrix.flatten) ∧
      (∀ shift ∈ config.Shifts, shift.Id ∉ config.RosterMatrix.flatten →
        ∀ row1 ∈ out.Table1, row1.Shift ≠ shift.Id) := by
  refine ⟨rosterWeek_ok fuel config year week, ?_⟩
  intro out hout
  obtain ⟨hb, _⟩ := rosterWeek_of_ok _ _ _ _ _ hout
  obtain ⟨_, hsorted, hmem, _⟩ := buildTables_of_ok _ _ _ _ _ hb
  have hrow : ∀ row1 ∈ out.Table1, row1.Shift ∈ config.RosterMatrix.flatten :=
    fun row1 h => (hmem _).mp (List.mem_map.mpr ⟨row1, h, rfl⟩)
  refine ⟨?_, hrow, ?_⟩
  · intro v hv
    have hnd : (out.Table1.map Table1Row.Shift).Nodup := hsorted.nodup
    have hc := List.count_eq_one_of_mem hnd ((hmem v).mpr hv)
    rw [List.count, List.countP_map] at hc
    rw [← hc]
    apply List.countP_congr
    intro row1 _
    simp
  · intro shift _ habsent row1 h1 heq
    exact habsent (heq ▸ hrow row1 h1)

theorem discovery_complete_witness :
    ∃ out, rosterWeek 54 ⟨"roster", [⟨1, "06:00", "14:00"⟩, ⟨5, "22:00", "06:00"⟩],
        ["A", "B"], [[3, 1], [1, 7]]⟩ 2024 1 = .ok out ∧
      (∀ v ∈ [[3, 1], [1, 7]].flatten,
        out.Table1.countP (fun row1 => row1.Shift = v) = 1) ∧
      (∀ row1 ∈ out.Table1, row1.Shift ∈ [[3, 1], [1, 7]].flatten) ∧
      (∀ shift ∈ [(⟨1, "06:00", "14:00"⟩ : ShiftDef), ⟨5, "22:00", "06:00"⟩],
        shift.Id ∉ [[3, 1], [1, 7]].flatten →
          ∀ row1 ∈ out.Table1, row1.Shift ≠ shift.Id) :=
  have h := discovery_complete 54 ⟨"roster", [⟨1, "06:00", "14:00"⟩, ⟨5, "22:00", "06:00"⟩],
    ["A", "B"], [[3, 1], [1, 7]]⟩ 2024 1
  (h.1 (by decide) (by decide) (by decide) (by decide) (by decide)).elim
    fun out hout => ⟨out, hout, h.2 out hout⟩

/-- C4: the program reaches the template whenever the arguments are in range,
the team is not empty and the matrix has no more rows than the team; and
whenever it does, the rows of the `Table1` handed to the template are in
strictly ascending order of `Shift`, for every matrix and so for every order in
which the scan of the matrix meets the shifts. -/
theorem table1_ascending (fuel : Nat) (config : DatasetConfig) (year week : Int) :
    (54 ≤ fuel → 2018 ≤ year ∧ year ≤ 2025 → 1 ≤ week ∧ week ≤ 55 →
      0 < config.TeamList.length →
      config.RosterMatrix.length ≤ config.TeamList.length →
      ∃ out, rosterWeek fuel config year week = .ok out) ∧
    ∀ out, rosterWeek fuel config year week = .ok out →
      (out.Table1.map Table1Row.Shift).Sorted (· < ·) := by
  refine ⟨rosterWeek_ok fuel config year week, ?_⟩
  intro out hout
  exact (buildTables_of_ok _ _ _ _ _ (rosterWeek_of_ok _ _ _ _ _ hout).1).2.1

theorem table1_ascending_witness :
    ∃ out, rosterWeek 54 ⟨"roster", [], ["A", "B"], [[3, 2, 1], [7]]⟩ 2024 1 = .ok out ∧
      out.Table1 = [⟨1, ["", "", "B"]⟩, ⟨2, ["", "B"]⟩, ⟨3, ["B"]⟩, ⟨7, ["A"]⟩] ∧
      (out.Table1.map Table1Row.Shift).Sorted (· < ·) :=
  have h := table1_ascending 54 ⟨"roster", [], ["A", "B"], [[3, 2, 1], [7]]⟩ 2024 1
  (h.1 (by decide) (by decide) (by decide) (by decide) (by decide)).elim
    fun out hout => ⟨out, hout,
      (Prod.mk.inj (Except.ok.inj ((rosterWeek_of_ok _ _ _ _ _ hout).1.symm.trans
        (by decide : buildTables ["A", "B"] 1 [[3, 2, 1], [7]] = .ok
          ([⟨"B", [3, 2, 1]⟩, ⟨"A", [7]⟩],
            [⟨1, ["", "", "B"]⟩, ⟨2, ["", "B"]⟩, ⟨3, ["B"]⟩, ⟨7, ["A"]⟩]))))).2,
      h.2 out hout⟩

/-- C3, as the claim has it, fails when the name of row `i1` is the empty string:
the code takes an empty slot for a free one, so the second name replaces the
first instead of being joined to it.  With the team `["B", ""]` in week 1 the
rotated names are `""` and `"B"`; both rows have shift 1 on day 0, and the entry
is `"B"`, not `"" + "\n" + "B"`. -/
theorem co_assignment_empty_first_name :
    buildTables ["B", ""] 1 [[1], [1]]
        = .ok ([⟨"", [1]⟩, ⟨"B", [1]⟩], [⟨1, ["B"]⟩]) ∧
      ("B" : String) ≠ "" ++ "\n" ++ "B" := by
  decide

/-- C3, amended: for a team list of `N > 0` names, a week number and a matrix
with `N` rows, if rows `i1 < i2` both have shift `k` on day `j`, the row of
`Table1` for shift `k` has an entry at day `j`; the names of the rows that have
shift `k` on day `j`, taken in row order, hold the name of row `i1` before the
name of row `i2`; when the first of those names is not empty the entry is
those names joined with line breaks; and when `i1` and `i2` are the only such
rows and the name of row `i1` is not empty, the entry is the name of row `i1`,
a line break, and the name of row `i2`. -/
theorem co_assignment_pair (teamList : List String) (week : Int) (matrix : List (List Int))
    (hN : 0 < teamList.length) (hw : 0 ≤ week) (hrows : matrix.length = teamList.length)
    (i1 i2 j : Nat) (k : Int) (row1 row2 : List Int) (hlt : i1 < i2)
    (h1 : matrix[i1]? = some row1) (h1k : row1[j]? = some k)
    (h2 : matrix[i2]? = some row2) (h2k : row2[j]? = some k) :
    ∃ table0 table1 name1 name2,
      buildTables teamList week matrix = .ok (table0, table1) ∧
      table0[i1]? = some ⟨name1, row1⟩ ∧ table0[i2]? = some ⟨name2, row2⟩ ∧
      ∃ shiftRow ∈ table1, shiftRow.Shift = k ∧
        ∃ entry, shiftRow.Names[j]? = some entry ∧
          [name1, name2].Sublist
            ((table0.filter fun row0 => row0.Shifts[j]? = some k).map Table0Row.Name) ∧
          (((table0.filter fun row0 => row0.Shifts[j]? = some k).map Table0Row.Name).head?
              ≠ some "" →
            entry = "\n".intercalate
              ((table0.filter fun row0 => row0.Shifts[j]? = some k).map Table0Row.Name)) ∧
          (name1 ≠ "" →
            (∀ (i : Nat) (row : List Int), matrix[i]? = some row → row[j]? = some k →
              i = i1 ∨ i = i2) →
            entry = name1 ++ "\n" ++ name2) := by
  obtain ⟨table0, table1, hb⟩ := buildTables_ok teamList week matrix hN hw (by omega)
  obtain ⟨⟨shifted, hs, h0⟩, _, hmem, hnames⟩ := buildTables_of_ok _ _ _ _ _ hb
  obtain ⟨_, hlen⟩ := shiftTeamlist_ok_length teamList week hN hw shifted hs
  obtain ⟨hi1, _⟩ := List.getElem?_eq_some.mp h1
  obtain ⟨hi2, _⟩ := List.getElem?_eq_some.mp h2
  have hn1 : shifted[i1]? = some shifted[i1] := List.getElem?_eq_getElem (by omega)
  have hn2 : shifted[i2]? = some shifted[i2] := List.getElem?_eq_getElem (by omega)
  have ht1 : table0[i1]? = some ⟨shifted[i1], row1⟩ := by
    rw [h0]; exact (table0_getElem? _ _ _ _).mpr ⟨hn1, h1⟩
  have ht2 : table0[i2]? = some ⟨shifted[i2], row2⟩ := by
    rw [h0]; exact (table0_getElem? _ _ _ _).mpr ⟨hn2, h2⟩
  refine ⟨table0, table1, shifted[i1], shifted[i2], hb, ht1, ht2, ?_⟩
  have hin : (⟨shifted[i1], row1⟩ : Table0Row) ∈ table0 :=
    List.mem_iff_getElem?.mpr ⟨i1, ht1⟩
  have hflat : k ∈ matrix.flatten :=
    List.mem_flatten.mpr ⟨row1, List.mem_iff_getElem?.mpr ⟨i1, h1⟩,
      List.mem_iff_getElem?.mpr ⟨j, h1k⟩⟩
  obtain ⟨shiftRow, hrow, hshift⟩ := List.mem_map.mp ((hmem k).mpr hflat)
  have hN1 := hnames shiftRow hrow
  rw [hshift] at hN1
  have hjlt : j < shiftRow.Names.length := by
    rw [hN1, length_tableFill]
    exact Or.inr ⟨_, hin, j, le_refl j, h1k⟩
  have hentry : shiftRow.Names[j] = ((table0.filter fun row0 =>
      row0.Shifts[j]? = some k).map Table0Row.Name).foldl joinName "" := by
    have hget : shiftRow.Names[j] = shiftRow.Names.getD j "" := by
      rw [List.getD_eq_getElem _ _ hjlt]
    rw [hget, hN1, getD_tableFill, List.getD_nil]
  refine ⟨shiftRow, hrow, hshift, shiftRow.Names[j], List.getElem?_eq_getElem hjlt, ?_, ?_, ?_⟩
  · have hsub := (sublist_pair table0 i1 i2 _ _ hlt ht1 ht2).filter
      (fun row0 => decide (row0.Shifts[j]? = some k))
    have hkeep : [(⟨shifted[i1], row1⟩ : Table0Row), ⟨shifted[i2], row2⟩].filter
        (fun row0 => decide (row0.Shifts[j]? = some k))
        = [⟨shifted[i1], row1⟩, ⟨shifted[i2], row2⟩] := by
      simp [h1k, h2k]
    rw [hkeep] at hsub
    exact hsub.map Table0Row.Name
  · intro hhead
    rw [hentry]
    exact foldl_joinName_intercalate _ hhead
  · intro hne honly
    have hfilter : table0.filter (fun row0 => row0.Shifts[j]? = some k)
        = [⟨shifted[i1], row1⟩, ⟨shifted[i2], row2⟩] := by
      apply filter_eq_pair _ table0 i1 i2 _ _ hlt ht1 ht2 (by simpa using h1k)
        (by simpa using h2k)
      intro n x hx hp
      rw [h0] at hx
      exact honly n x.Shifts ((table0_getElem? _ _ _ _).mp hx).2 (by simpa using hp)
    have hnot : ¬ (shifted[i1]).length < 1 := fun h => hne ((string_length_lt_one _).mp h)
    rw [hentry, hfilter]
    simp only [List.map_cons, List.map_nil, List.foldl_cons, List.foldl_nil, joinName_empty]
    rw [joinName, if_neg hnot]

theorem co_assignment_pair_witness :
    ∃ table0 table1,
      buildTables ["A", "B", "C"] 4 [[1, 2], [1, 1], [2, 1]] = .ok (table0, table1) ∧
      table0[1]? = some ⟨"C", [1, 1]⟩ ∧ table0[2]? = some ⟨"A", [2, 1]⟩ ∧
      ∃ shiftRow ∈ table1, shiftRow.Shift = 1 ∧
        shiftRow.Names[1]? = some ("C" ++ "\n" ++ "A") := by
  have honly : ∀ (i : Nat) (row : List Int),
      [[1, 2], [1, 1], [2, 1]][i]? = some row → row[1]? = some 1 → i = 1 ∨ i = 2 := by
    intro i row hrow hcell
    match i, hrow with
    | 0, hrow =>
      simp only [List.getElem?_cons_zero, Option.some.injEq] at hrow
      subst hrow
      simp at hcell
    | 1, _ => exact Or.inl rfl
    | 2, _ => exact Or.inr rfl
    | n + 3, hrow => simp at hrow
  obtain ⟨table0, table1, name1, name2, hb, h1, h2, shiftRow, hrow, hshift, entry, hentry,
      _, _, hpair⟩ :=
    co_assignment_pair ["A", "B", "C"] 4 [[1, 2], [1, 1], [2, 1]] (by decide) (by decide)
      (by decide) 1 2 1 1 [1, 1] [2, 1] (by decide) (by decide) (by decide) (by decide)
      (by decide)
  have hval : buildTables ["A", "B", "C"] 4 [[1, 2], [1, 1], [2, 1]]
      = .ok ([⟨"B", [1, 2]⟩, ⟨"C", [1, 1]⟩, ⟨"A", [2, 1]⟩],
        [⟨1, ["B\nC", "C\nA"]⟩, ⟨2, ["A", "B"]⟩]) := by decide
  rw [hval] at hb
  injection hb with hb
  injection hb with ht0 ht1
  subst ht0
  simp only [List.getElem?_cons_succ, List.getElem?_cons_zero, Option.some.injEq,
    Table0Row.mk.injEq, and_true] at h1 h2
  subst h1 h2
  have he := hpair (by decide) honly
  subst he
  exact ⟨_, table1, by rw [hval, ht1], rfl, rfl, shiftRow, hrow, hshift, hentry⟩

/-- C8, as the claim has it, fails: in a matrix of week length 2 the row of a
shift that occurs on day 0 only has a `Names` of length 1. -/
theorem names_shorter_than_week :
    buildTables ["A"] 1 [[1, 2]]
        = .ok ([⟨"A", [1, 2]⟩], [⟨1, ["A"]⟩, ⟨2, ["", "A"]⟩]) ∧
      (["A"] : List String).length ≠ ([1, 2] : List Int).length := by
  decide

/-- C8, amended: for a team list of `N > 0` non-empty names, a week number and
a matrix with `N` rows of equal length `W`, the `Names` of every row of
`Table1` reaches exactly to the last day on which some person has that shift
(so it has at least one and at most `W` entries), and inside that length the
empty string stands at exactly the days on which no person has that shift. -/
theorem names_length_and_gaps (teamList : List String) (week : Int) (matrix : List (List Int))
    (W : Nat) (hN : 0 < teamList.length) (hw : 0 ≤ week)
    (hrows : matrix.length = teamList.length) (hW : ∀ row ∈ matrix, row.length = W)
    (hne : ∀ name ∈ teamList, name ≠ "") :
    ∃ table0 table1, buildTables teamList week matrix = .ok (table0, table1) ∧
      ∀ shiftRow ∈ table1,
        0 < shiftRow.Names.length ∧ shiftRow.Names.length ≤ W ∧
        (∀ n, n < shiftRow.Names.length ↔
          ∃ (i : Nat) (row : List Int), matrix[i]? = some row ∧
            ∃ j, n ≤ j ∧ row[j]? = some shiftRow.Shift) ∧
        (∀ j, j < shiftRow.Names.length →
          (shiftRow.Names[j]? = some "" ↔
            ¬ ∃ (i : Nat) (row : List Int), matrix[i]? = some row ∧
              row[j]? = some shiftRow.Shift)) := by
  obtain ⟨table0, table1, hb⟩ := buildTables_ok teamList week matrix hN hw (by omega)
  obtain ⟨⟨shifted, hs, h0⟩, _, hmem, hnames⟩ := buildTables_of_ok _ _ _ _ _ hb
  obtain ⟨hrot, hlen⟩ := shiftTeamlist_ok_length teamList week hN hw shifted hs
  have hlen0 : matrix.length = shifted.length := by omega
  refine ⟨table0, table1, hb, ?_⟩
  intro shiftRow hrow
  have hN1 := hnames shiftRow hrow
  have hlength : ∀ n, n < shiftRow.Names.length ↔
      ∃ (i : Nat) (row : List Int), matrix[i]? = some row ∧
        ∃ j, n ≤ j ∧ row[j]? = some shiftRow.Shift := by
    intro n
    rw [hN1, length_tableFill, h0,
      exists_table0_iff shifted matrix hlen0
        (fun row => ∃ j, n ≤ j ∧ row[j]? = some shiftRow.Shift)]
    simp
  refine ⟨?_, ?_, hlength, ?_⟩
  · rw [hlength 0]
    have hflat : shiftRow.Shift ∈ matrix.flatten :=
      (hmem _).mp (List.mem_map.mpr ⟨shiftRow, hrow, rfl⟩)
    obtain ⟨row, hrowm, hcell⟩ := List.mem_flatten.mp hflat
    obtain ⟨i, hi⟩ := List.mem_iff_getElem?.mp hrowm
    obtain ⟨j, hj⟩ := List.mem_iff_getElem?.mp hcell
    exact ⟨i, row, hi, j, Nat.zero_le j, hj⟩
  · by_contra hgt
    have hWlt : W < shiftRow.Names.length := by omega
    obtain ⟨i, row, hi, j, hWj, hj⟩ := (hlength W).mp hWlt
    have hrl := hW row (List.mem_iff_getElem?.mpr ⟨i, hi⟩)
    obtain ⟨hjlt, _⟩ := List.getElem?_eq_some.mp hj
    omega
  · intro j hj
    have hentry : shiftRow.Names[j]? = some (shiftRow.Names.getD j "") := by
      rw [List.getElem?_eq_getElem hj, List.getD_eq_getElem _ _ hj]
    have hnonempty : ∀ x ∈ (table0.filter fun row0 =>
        row0.Shifts[j]? = some shiftRow.Shift).map Table0Row.Name, x ≠ "" := by
      intro x hx
      obtain ⟨row0, hr0, rfl⟩ := List.mem_map.mp hx
      have hr1 := (List.mem_filter.mp hr0).1
      rw [h0] at hr1
      obtain ⟨n, hn⟩ := List.mem_iff_getElem?.mp hr1
      have hsn := ((table0_getElem? _ _ _ _).mp hn).1
      have hmemS : row0.Name ∈ shifted := List.mem_iff_getElem?.mpr ⟨n, hsn⟩
      rw [hrot] at hmemS
      exact hne _ ((List.rotate_perm _ _).mem_iff.mp hmemS)
    rw [hentry, Option.some.injEq]
    conv_lhs => rw [hN1]
    rw [getD_tableFill, List.getD_nil, foldl_joinName_eq_empty _ hnonempty,
      List.map_eq_nil_iff, List.filter_eq_nil_iff, ← not_iff_not, not_not]
    rw [← exists_table0_iff shifted matrix hlen0
      (fun row => row[j]? = some shiftRow.Shift), ← h0]
    simp

theorem names_length_and_gaps_witness :
    ∃ table0 table1, buildTables ["A"] 1 [[1, 2]] = .ok (table0, table1) ∧
      ∀ shiftRow ∈ table1,
        0 < shiftRow.Names.length ∧ shiftRow.Names.length ≤ 2 ∧
        (∀ n, n < shiftRow.Names.length ↔
          ∃ (i : Nat) (row : List Int), [[1, 2]][i]? = some row ∧
            ∃ j, n ≤ j ∧ row[j]? = some shiftRow.Shift) ∧
        (∀ j, j < shiftRow.Names.length →
          (shiftRow.Names[j]? = some "" ↔
            ¬ ∃ (i : Nat) (row : List Int), [[1, 2]][i]? = some row ∧
              row[j]? = some shiftRow.Shift)) :=
  names_length_and_gaps ["A"] 1 [[1, 2]] 2 (by decide) (by decide) (by decide)
    (by decide) (by decide)

/-! ## The claims about the dates of the week -/

/-- C7 at the failing input: in 2021 the scan stops on 1 January at once, because
that day lies in ISO week 53 of 2020; so for every requested week (week 1
among them) `weekMonday` is 28 December 2020, a Monday of ISO year 2020, and the
template gets the dates 28/12 and 03/01.  The Monday of week 1 of 2021 is
4 January 2021. -/
theorem weekDates_2021_any_week (fuel : Nat) (week : Int) :
    weekDates (fuel + 7) 2021 week = .ok (Date 2020 12 28, Date 2021 1 3) ∧
      (Date 2020 12 28).ISOWeek = (2020, 53) ∧
      (Date 2021 1 4).ISOWeek = (2021, 1) ∧ (Date 2021 1 4).Weekday = 1 ∧
      (rosterWeek 54 ⟨"roster", [], ["A"], [[1]]⟩ 2021 1).map (fun out => out.WeekInfo)
        = .ok ["2021", "1", "28/12", "03/01"] := by
  refine ⟨?_, by decide, by decide, by decide, by decide⟩
  have hs : seekWeek 2021 week (fuel + 6 + 1) (Date (2021 : Int).toNat 1 1)
      = .ok (Date 2021 1 1) := by
    have hiso : (Date (2021 : Int).toNat 1 1).ISOWeek = (2020, 53) := by decide
    have hc : ¬ (((2020 : Nat) : Int) = 2021 ∧ ((53 : Nat) : Int) ≠ week) := by omega
    simp only [seekWeek, hiso, if_neg hc]
    rfl
  rw [weekDates_of_seekWeek (fuel + 7) 2021 week (Date 2021 1 1) (by omega) hs]
  rfl

/-- C9, as the claim has it, fails: no date lies in ISO week 53 of 2018, and the
computation for year 2018 and week 53 does not fail but returns Monday
31 December 2018 and Sunday 6 January 2019, the first week of ISO year 2019. -/
theorem week_53_of_2018_returns_dates :
    (∀ t : Time, t.ISOWeek ≠ (2018, 53)) ∧
      weekDates 54 2018 53 = .ok (Date 2018 12 31, Date 2019 1 6) ∧
      (Date 2018 12 31).ISOWeek = (2019, 1) :=
  ⟨no_week_53_in_2018, by decide, by decide⟩

/-- C9, amended: for every year of 2018..2025 and every week number the week
computation does not fail; it returns a Monday and the Sunday six days later.
The scan goes from 1 January in steps of seven days and stops on the first date
that is in the requested week or outside ISO year `year`, at most 53 steps on;
the Monday returned is the Monday of the week of that date.  When no date lies
in the requested week of the requested year, the scan stops on the first
scanned date outside ISO year `year`, and the Monday returned belongs to that
other ISO year. -/
theorem weekDates_never_fails (fuel : Nat) (year week : Int)
    (hy : 2018 ≤ year ∧ year ≤ 2025) (hfuel : 54 ≤ fuel) :
    ∃ (n : Nat) (weekMonday weekSunday : Time),
      weekDates fuel year week = .ok (weekMonday, weekSunday) ∧
      weekMonday.Weekday = 1 ∧ weekSunday.abs = weekMonday.abs + 6 ∧
      n ≤ 53 ∧
      weekMonday.abs ≤ (Date year.toNat 1 1).abs + 7 * n ∧
      (Date year.toNat 1 1).abs + 7 * n ≤ weekSunday.abs ∧
      weekMonday.ISOWeek = Time.ISOWeek ⟨(Date year.toNat 1 1).abs + 7 * n⟩ ∧
      (∀ i, i < n →
        ((Time.ISOWeek ⟨(Date year.toNat 1 1).abs + 7 * i⟩).1 : Int) = year ∧
        ((Time.ISOWeek ⟨(Date year.toNat 1 1).abs + 7 * i⟩).2 : Int) ≠ week) ∧
      ¬ (((Time.ISOWeek ⟨(Date year.toNat 1 1).abs + 7 * n⟩).1 : Int) = year ∧
        ((Time.ISOWeek ⟨(Date year.toNat 1 1).abs + 7 * n⟩).2 : Int) ≠ week) ∧
      ((∀ t : Time, ¬ ((t.ISOWeek.1 : Int) = year ∧ (t.ISOWeek.2 : Int) = week)) →
        ((Time.ISOWeek ⟨(Date year.toNat 1 1).abs + 7 * n⟩).1 : Int) ≠ year ∧
        (weekMonday.ISOWeek.1 : Int) ≠ year) := by
  obtain ⟨n, hn, hr, hstop, hbefore⟩ := seekWeek_scan year week 53 fuel
    (Date year.toNat 1 1) (by omega) (year_ends year hy)
  have hd := weekDates_of_seekWeek fuel year week _ (by omega) hr
  have hiso := isoWeek_monday ⟨(Date year.toNat 1 1).abs + 7 * n⟩
  refine ⟨n, _, _, hd, ?_, rfl, hn, ?_, ?_, hiso, hbefore, hstop, ?_⟩
  · show ((Date year.toNat 1 1).abs + 7 * n - ((Date year.toNat 1 1).abs + 7 * n) % 7 + 1) % 7
      = 1
    omega
  · show (Date year.toNat 1 1).abs + 7 * n - ((Date year.toNat 1 1).abs + 7 * n) % 7
      ≤ (Date year.toNat 1 1).abs + 7 * n
    omega
  · show (Date year.toNat 1 1).abs + 7 * n
      ≤ (Date year.toNat 1 1).abs + 7 * n - ((Date year.toNat 1 1).abs + 7 * n) % 7 + 6
    omega
  · intro hnone
    have hyear : ((Time.ISOWeek ⟨(Date year.toNat 1 1).abs + 7 * n⟩).1 : Int) ≠ year := by
      intro hyear
      exact hstop ⟨hyear, fun h => hnone _ ⟨hyear, h⟩⟩
    refine ⟨hyear, ?_⟩
    rw [hiso]
    exact hyear

theorem weekDates_never_fails_witness :
    ∃ (n : Nat) (weekMonday weekSunday : Time),
      weekDates 54 2018 53 = .ok (weekMonday, weekSunday) ∧
      weekMonday.Weekday = 1 ∧ weekSunday.abs = weekMonday.abs + 6 ∧
      n ≤ 53 ∧
      weekMonday.ISOWeek = Time.ISOWeek ⟨(Date 2018 1 1).abs + 7 * n⟩ ∧
      (∀ i, i < n → ((Time.ISOWeek ⟨(Date 2018 1 1).abs + 7 * i⟩).1 : Int) = 2018) ∧
      ((Time.ISOWeek ⟨(Date 2018 1 1).abs + 7 * n⟩).1 : Int) ≠ 2018 ∧
      (weekMonday.ISOWeek.1 : Int) ≠ 2018 := by
  obtain ⟨n, weekMonday, weekSunday, hd, hmon, hsun, hn, _, _, hiso, hbefore, _, hnone⟩ :=
    weekDates_never_fails 54 2018 53 (by decide) (by decide)
  have h53 : ∀ t : Time, ¬ ((t.ISOWeek.1 : Int) = 2018 ∧ (t.ISOWeek.2 : Int) = 53) := by
    intro t ht
    have h1 : t.ISOWeek.1 = 2018 := by exact_mod_cast ht.1
    have h2 : t.ISOWeek.2 = 53 := by exact_mod_cast ht.2
    exact no_week_53_in_2018 t (Prod.ext h1 h2)
  exact ⟨n, weekMonday, weekSunday, hd, hmon, hsun, hn, hiso,
    fun i hi => (hbefore i hi).1, (hnone h53).1, (hnone h53).2⟩

end RosterWeek
